/- Verification development for a path-tracing renderer.

   The Rust source is shallowly embedded: `f64` is modelled by `ℝ`
   (exact real arithmetic, no rounding, no NaN except where a NaN data
   path is noted and modelled explicitly), `Range<f64>` query intervals
   by a real start and an `EReal` end (so `f64::INFINITY` is `⊤`), and
   the crate's random number generator by an explicit tape of real
   numbers that is consumed deterministically.  Every definition mirrors
   its source function; definitions marked "Modelled from the spec" stand
   for code of the repository that is not present under `src/`
   (the newer `lib.rs` with `Color`, `CrateRng`, `F64Ext`, `Dummy`, and
   the external `rand`/`rand_distr` crates) and follow the spec's words.
-/
import Mathlib

noncomputable section
open Classical

/-- Three-dimensional vector of reals, mirroring `vec3.rs`'s `Vec3`. -/
structure Vec3 where
  x : ℝ
  y : ℝ
  z : ℝ
deriving DecidableEq

namespace Vec3

instance : Add Vec3 := ⟨fun a b => ⟨a.x + b.x, a.y + b.y, a.z + b.z⟩⟩

instance : Sub Vec3 := ⟨fun a b => ⟨a.x - b.x, a.y - b.y, a.z - b.z⟩⟩

instance : Neg Vec3 := ⟨fun a => ⟨-a.x, -a.y, -a.z⟩⟩

/-- Scalar multiplication, mirroring `impl Mul<f64> for Vec3`. -/
instance : SMul ℝ Vec3 := ⟨fun c a => ⟨c * a.x, c * a.y, c * a.z⟩⟩

/-- Division of a vector by a scalar, mirroring `impl Div<f64> for Vec3`. -/
instance : HDiv Vec3 ℝ Vec3 := ⟨fun a c => ⟨a.x / c, a.y / c, a.z / c⟩⟩

/-- Mirrors `Vec3::dot`. -/
def dot (a b : Vec3) : ℝ := a.x * b.x + a.y * b.y + a.z * b.z

/-- Mirrors `Vec3::cross`. -/
def cross (a b : Vec3) : Vec3 :=
  ⟨a.y * b.z - a.z * b.y, a.z * b.x - a.x * b.z, a.x * b.y - a.y * b.x⟩

/-- Mirrors `Vec3::norm_squared`. -/
def normSq (a : Vec3) : ℝ := a.x ^ 2 + a.y ^ 2 + a.z ^ 2

/-- Mirrors `Vec3::norm`. -/
def norm (a : Vec3) : ℝ := Real.sqrt a.normSq

/-- Mirrors `Vec3::normalized` (`v / v.norm()`).  Normalizing the zero
    vector is a NaN (debug-trap) in the source; in ℝ the division by zero
    yields the zero vector, and every theorem touching this case carries a
    nonzero hypothesis. -/
def normalized (v : Vec3) : Vec3 := v / v.norm

/-- Mirrors `Vec3::reflect`: note that the source normalizes `self`
    before reflecting. -/
def reflect (v normal : Vec3) : Vec3 :=
  let unit_dir := normalized v
  unit_dir - (2 * unit_dir.dot normal) • normal

/-- Mirrors `Vec3::refract`. -/
def refract (v normal : Vec3) (etaIOverEtaT : ℝ) : Vec3 :=
  let cosTheta := (-v).dot normal
  let refractParallel := etaIOverEtaT • (v + cosTheta • normal)
  let refractPerp := -(Real.sqrt (1 - refractParallel.normSq)) • normal
  refractParallel + refractPerp

end Vec3

/-- Mirrors `vec3.rs`'s `Axis` enumeration. -/
inductive Axis where
  | X
  | Y
  | Z
deriving DecidableEq

/-- Mirrors `impl ops::Index<Axis> for Vec3`. -/
def Vec3.get (v : Vec3) : Axis → ℝ
  | .X => v.x
  | .Y => v.y
  | .Z => v.z

/-- Mirrors `hit.rs`-era `Ray` (origin, direction, motion-blur time). -/
structure Ray where
  origin : Vec3
  dir : Vec3
  time : ℝ

/-- Mirrors `Ray::at`. -/
def Ray.at (r : Ray) (t : ℝ) : Vec3 := r.origin + t • r.dir

/-- Modelled from the spec: the crate's `Color` type (defined in the
    newer `lib.rs`, which is not under `src/`) is a triple of linear
    color components with componentwise arithmetic. -/
structure Color where
  r : ℝ
  g : ℝ
  b : ℝ

namespace Color

instance : Add Color := ⟨fun a b => ⟨a.r + b.r, a.g + b.g, a.b + b.b⟩⟩

/-- Componentwise product, used for attenuation accumulation. -/
instance : Mul Color := ⟨fun a b => ⟨a.r * b.r, a.g * b.g, a.b * b.b⟩⟩

instance : SMul ℝ Color := ⟨fun c a => ⟨c * a.r, c * a.g, c * a.b⟩⟩

instance : HDiv Color ℝ Color := ⟨fun a c => ⟨a.r / c, a.g / c, a.b / c⟩⟩

/-- Modelled from the spec: `Color::default()` is neutral white
    `(1,1,1)` (the dielectric's "always neutral" attenuation). -/
def one : Color := ⟨1, 1, 1⟩

def zero : Color := ⟨0, 0, 0⟩

end Color

/-- Modelled from the spec: `CrateRng` (`rand::rngs::SmallRng`) is an
    external crate; the spec requires only that it is an explicitly
    seeded, deterministic pseudo-random stream.  We model a generator
    state as an infinite tape of reals plus a position; every draw takes
    the tape head and advances the position. -/
structure Rng where
  tape : ℕ → ℝ
  idx : ℕ

namespace Rng

/-- Modelled from the spec: one primitive draw (`rng.gen::<f64>()`,
    uniform in `[0,1)`). -/
def next (r : Rng) : ℝ × Rng := (r.tape r.idx, ⟨r.tape, r.idx + 1⟩)

/-- Modelled from the spec: `rng.gen_range(a, b)` scales one draw. -/
def nextRange (r : Rng) (a b : ℝ) : ℝ × Rng :=
  let (u, r') := r.next
  (a + (b - a) * u, r')

end Rng

/-- Modelled from the spec: drawing a uniformly random `Axis`
    (`rng.gen::<Axis>()`, or `rng.gen_range(0, 3)` in `shape.rs`).
    One draw is partitioned into the three equally likely values. -/
def drawAxis (r : Rng) : Axis × Rng :=
  let (u, r') := r.next
  (if u < 1/3 then .X else if u < 2/3 then .Y else .Z, r')

/-- Modelled from the spec: `Vec3::rand_unit_sphere` samples uniformly
    from the unit-sphere surface via `rand_distr::UnitSphere` (external
    crate); deterministic function of two draws. -/
def sphereSample (r : Rng) : Vec3 × Rng :=
  let (u, r₁) := r.next
  let (v, r₂) := r₁.next
  let zc := 2 * u - 1
  let rho := Real.sqrt (1 - zc ^ 2)
  (⟨rho * Real.cos (2 * Real.pi * v), rho * Real.sin (2 * Real.pi * v), zc⟩, r₂)

/-- Modelled from the spec: `Vec3::rand_unit_disk` samples uniformly
    from the unit disk via `rand_distr::UnitDisc` (external crate);
    deterministic function of two draws. -/
def diskSample (r : Rng) : Vec3 × Rng :=
  let (u, r₁) := r.next
  let (v, r₂) := r₁.next
  (⟨Real.sqrt u * Real.cos (2 * Real.pi * v), Real.sqrt u * Real.sin (2 * Real.pi * v), 0⟩, r₂)

/-- Materials of `material.rs` as a closed sum: `Lambertian` (its
    texture evaluated at the hit point), `Metal`, `Dielectric`, and the
    debug `DbgBlack`. -/
inductive Material where
  | lambertian (tex : Vec3 → Color)
  | metal (albedo : Color) (fuzz : ℝ)
  | dielectric (refIndex : ℝ)
  | dbgBlack

/-- Mirrors `Metal::new`, which clamps fuzz with `fuzz.min(1.)`. -/
def Material.mkMetal (albedo : Color) (fuzz : ℝ) : Material :=
  .metal albedo (min fuzz 1)

/-- Mirrors `shape.rs`'s `Hit` record (point, oriented unit normal, hit
    time, face flag, struck material). -/
structure Hit where
  point : Vec3
  normal : Vec3
  time : ℝ
  frontFace : Bool
  material : Material

/-- Mirrors `Hit::ray`: orient the outward normal against the incident
    ray, recording which face was struck. -/
def Hit.ray (point normal : Vec3) (t : ℝ) (ray : Ray) (m : Material) : Hit :=
  if ray.dir.dot normal < 0 then ⟨point, normal, t, true, m⟩
  else ⟨point, -normal, t, false, m⟩

/-- Mirrors `material.rs`'s `Scatter` (attenuation and scattered ray). -/
structure Scatter where
  albedo : Color
  ray : Ray

/-- Mirrors `Dielectric::schlick`. -/
def schlick (cos etaIOverEtaT : ℝ) : ℝ :=
  let r0 := (1 - etaIOverEtaT) / (1 + etaIOverEtaT)
  let r0sq := r0 * r0
  r0sq + (1 - r0sq) * (1 - cos) ^ 5

/-- Mirrors `Material::scatter` for each variant of `material.rs`.
    Random draws are threaded through the `Rng` state exactly where the
    source consumes them (note the short-circuit `||` in `Dielectric`:
    no draw happens under total internal reflection). -/
def Material.scatter : Material → Ray → Hit → Rng → Option Scatter × Rng
  | .lambertian tex, ray, hit, rng =>
    let (s, rng') := sphereSample rng
    let scatterDir := hit.normal + s
    (some ⟨tex hit.point, ⟨hit.point, scatterDir, ray.time⟩⟩, rng')
  | .metal albedo fuzz, ray, hit, rng =>
    let (s, rng') := sphereSample rng
    let fuzzVec := fuzz • s
    let reflected := ray.dir.reflect hit.normal + fuzzVec
    let dir := if reflected.dot hit.normal ≤ 0 then reflected - (2:ℝ) • fuzzVec
      else reflected
    (some ⟨albedo, ⟨hit.point, dir, ray.time⟩⟩, rng')
  | .dielectric refIndex, ray, hit, rng =>
    let eta := if hit.frontFace then 1 / refIndex else refIndex
    let unitDir := Vec3.normalized ray.dir
    let cosTheta := min ((-unitDir).dot hit.normal) 1
    let sinTheta := Real.sqrt (1 - cosTheta ^ 2)
    if 1 < eta * sinTheta then
      (some ⟨Color.one, ⟨hit.point, unitDir.reflect hit.normal, ray.time⟩⟩, rng)
    else
      let (u, rng') := rng.next
      if u < schlick cosTheta eta then
        (some ⟨Color.one, ⟨hit.point, unitDir.reflect hit.normal, ray.time⟩⟩, rng')
      else
        (some ⟨Color.one, ⟨hit.point, unitDir.refract hit.normal eta, ray.time⟩⟩, rng')
  | .dbgBlack, ray, _, rng =>
    (some ⟨Color.zero, ray⟩, rng)

/-- Mirrors `AABB` (axis-aligned bounding box). -/
structure AABB where
  min : Vec3
  max : Vec3

namespace AABB

/-- Mirrors `AABB::surrounding`. -/
def surrounding (a b : AABB) : AABB :=
  ⟨⟨Min.min a.min.x b.min.x, Min.min a.min.y b.min.y, Min.min a.min.z b.min.z⟩,
   ⟨Max.max a.max.x b.max.x, Max.max a.max.y b.max.y, Max.max a.max.z b.max.z⟩⟩

end AABB

/-- One axis of the slab test of `AABB::hit`.  For a nonzero direction
    component this is the source's `t0/t1` computation with the swap for
    a negative reciprocal.  For a zero component the source computes
    `t0, t1 = (bound - origin) * ±∞` in IEEE arithmetic; the net effect
    (worked out over the NaN/∞ cases of `f64::max`/`f64::min`, which
    ignore NaN operands) is: if the origin's coordinate lies inside the
    closed slab the range passes through unchanged, otherwise the test
    definitely fails, which we encode as `none`. -/
def slabUpdate (mn mx o d : ℝ) (st : ℝ) (en : EReal) : Option (ℝ × EReal) :=
  if d = 0 then
    if mn ≤ o ∧ o ≤ mx then some (st, en) else none
  else
    let t0 := (mn - o) / d
    let t1 := (mx - o) / d
    let lo := if d < 0 then t1 else t0
    let hi := if d < 0 then t0 else t1
    some (max st lo, min en (hi : EReal))

/-- The interval that survives all three slab updates of `AABB::hit`
    (the source checks `range.end > range.start` after each axis; since
    the start only grows and the end only shrinks, checking once at the
    end is equivalent, and a definite per-axis failure is `none`). -/
def AABB.hitRange (bb : AABB) (ray : Ray) (st : ℝ) (en : EReal) : Option (ℝ × EReal) :=
  (slabUpdate bb.min.x bb.max.x ray.origin.x ray.dir.x st en).bind fun p =>
  (slabUpdate bb.min.y bb.max.y ray.origin.y ray.dir.y p.1 p.2).bind fun q =>
  slabUpdate bb.min.z bb.max.z ray.origin.z ray.dir.z q.1 q.2

/-- Mirrors `AABB::hit`: the box is hit iff the surviving interval is
    nonempty (`range.end > range.start`). -/
def AABB.hit (bb : AABB) (ray : Ray) (st : ℝ) (en : EReal) : Prop :=
  ∃ p : ℝ × EReal, bb.hitRange ray st en = some p ∧ (p.1 : EReal) < p.2

/-- Mirrors `f64::partial_cmp` on non-NaN values. -/
def cmpReal (a b : ℝ) : Ordering :=
  if a < b then .lt else if b < a then .gt else .eq

/-- Mirrors `AABB::compare_axis` (`hit.rs`) and the
    `compare_x/y/z` family (`shape.rs`): compare box minima along one
    axis. -/
def AABB.compareAxis (a b : AABB) (ax : Axis) : Ordering :=
  cmpReal (a.min.get ax) (b.min.get ax)

/-- Mirrors the comparator closure of `BVH::inner_list`
    (`hit.rs` lines 234-239, equivalently `AABB::rand_axis_compare`
    called inside the closure in `shape.rs`): every single comparison
    first draws a fresh random axis and then compares the two bounding
    boxes' minima along it. -/
def bvhSortCmp (rng : Rng) (a b : AABB) : Ordering × Rng :=
  let (ax, rng') := drawAxis rng
  (a.compareAxis b ax, rng')

/-- Mirrors `shape.rs`'s `Sphere` (center, radius, material). -/
structure Sphere where
  center : Vec3
  radius : ℝ
  material : Material

/-- Mirrors `Sphere::bounding_box` (the shutter interval is unused). -/
def Sphere.box (sp : Sphere) : AABB :=
  ⟨sp.center - ⟨sp.radius, sp.radius, sp.radius⟩,
   sp.center + ⟨sp.radius, sp.radius, sp.radius⟩⟩

/-- Mirrors `Sphere::hit`.  When `a = 0` (degenerate zero direction) the
    source computes `t = (−0 ± 0)/0 = NaN` and `Range::contains(NaN)` is
    false, so no hit is produced; ℝ has no NaN, so that data path is made
    explicit. -/
def Sphere.hit (sp : Sphere) (ray : Ray) (st : ℝ) (en : EReal) : Option Hit :=
  let oc := ray.origin - sp.center
  let a := ray.dir.normSq
  let half_b := oc.dot ray.dir
  let c := oc.normSq - sp.radius ^ 2
  let disc := half_b ^ 2 - a * c
  if a = 0 then none
  else if 0 ≤ disc then
    let root := Real.sqrt disc
    let tlo := (-half_b - root) / a
    let thi := (-half_b + root) / a
    if st ≤ tlo ∧ (tlo : EReal) < en then
      some (Hit.ray (ray.at tlo) ((ray.at tlo - sp.center) / sp.radius) tlo ray sp.material)
    else if st ≤ thi ∧ (thi : EReal) < en then
      some (Hit.ray (ray.at thi) ((ray.at thi - sp.center) / sp.radius) thi ray sp.material)
    else none
  else none

/-- Mirrors `shape.rs`'s `MovingSphere`. -/
structure MovingSphere where
  c0 : Vec3
  c1 : Vec3
  t0 : ℝ
  t1 : ℝ
  radius : ℝ
  material : Material

/-- Mirrors `MovingSphere::center`. -/
def MovingSphere.center (m : MovingSphere) (t : ℝ) : Vec3 :=
  m.c0 + ((t - m.t0) / (m.t1 - m.t0)) • (m.c1 - m.c0)

/-- Mirrors `MovingSphere::hit`: resolve the time-dependent center, then
    the same quadratic as `Sphere::hit`. -/
def MovingSphere.hit (m : MovingSphere) (ray : Ray) (st : ℝ) (en : EReal) : Option Hit :=
  let center := m.center ray.time
  let oc := ray.origin - center
  let a := ray.dir.normSq
  let half_b := oc.dot ray.dir
  let c := oc.normSq - m.radius ^ 2
  let disc := half_b ^ 2 - a * c
  if a = 0 then none
  else if 0 ≤ disc then
    let root := Real.sqrt disc
    let tlo := (-half_b - root) / a
    let thi := (-half_b + root) / a
    if st ≤ tlo ∧ (tlo : EReal) < en then
      some (Hit.ray (ray.at tlo) ((ray.at tlo - center) / m.radius) tlo ray m.material)
    else if st ≤ thi ∧ (thi : EReal) < en then
      some (Hit.ray (ray.at thi) ((ray.at thi - center) / m.radius) thi ray m.material)
    else none
  else none

/-- The candidate hit times of a sphere for a given ray. -/
def Sphere.isRoot (sp : Sphere) (ray : Ray) (t : ℝ) : Prop :=
  let oc := ray.origin - sp.center
  let a := ray.dir.normSq
  let half_b := oc.dot ray.dir
  let c := oc.normSq - sp.radius ^ 2
  let disc := half_b ^ 2 - a * c
  a ≠ 0 ∧ 0 ≤ disc ∧
    (t = (-half_b - Real.sqrt disc) / a ∨ t = (-half_b + Real.sqrt disc) / a)

/-- Specification of a closest-hit query result over candidate times. -/
def MinSpec (cand : ℝ → Prop) (st : ℝ) (en : EReal) : Option Hit → Prop
  | none => ∀ t, cand t → st ≤ t → (t : EReal) < en → False
  | some h => cand h.time ∧ st ≤ h.time ∧ (h.time : EReal) < en ∧
      ∀ t, cand t → st ≤ t → (t : EReal) < en → h.time ≤ t

theorem Vec3.normSq_nonneg (v : Vec3) : 0 ≤ v.normSq := by
  unfold Vec3.normSq; positivity

@[simp] theorem Hit.ray_time (point normal : Vec3) (t : ℝ) (ray : Ray) (m : Material) :
    (Hit.ray point normal t ray m).time = t := by
  unfold Hit.ray; split <;> rfl

theorem Sphere.hit_minspec (sp : Sphere) (ray : Ray) (st : ℝ) (en : EReal) :
    MinSpec (sp.isRoot ray) st en (sp.hit ray st en) := by
  have hann : 0 ≤ ray.dir.normSq := Vec3.normSq_nonneg _
  simp only [Sphere.hit, Sphere.isRoot]
  set oc := ray.origin - sp.center with hoc
  set a := ray.dir.normSq with ha
  set half_b := oc.dot ray.dir with hhb
  set c := oc.normSq - sp.radius ^ 2 with hc
  set disc := half_b ^ 2 - a * c with hdisc
  by_cases ha0 : a = 0
  · rw [if_pos ha0]
    intro t ht _ _
    exact ht.1 ha0
  · rw [if_neg ha0]
    by_cases hd : 0 ≤ disc
    · rw [if_pos hd]
      set root := Real.sqrt disc with hroot
      set tlo := (-half_b - root) / a with htlo
      set thi := (-half_b + root) / a with hthi
      have hapos : 0 < a := lt_of_le_of_ne hann (Ne.symm ha0)
      have hr0 : 0 ≤ root := hroot ▸ Real.sqrt_nonneg _
      have hle : tlo ≤ thi := by
        rw [htlo, hthi]
        exact (div_le_div_iff_of_pos_right hapos).mpr (by linarith)
      by_cases h1 : st ≤ tlo ∧ (tlo : EReal) < en
      · rw [if_pos h1]
        refine ⟨⟨ha0, hd, Or.inl (Hit.ray_time ..)⟩, ?_, ?_, ?_⟩
        · rw [Hit.ray_time]; exact h1.1
        · rw [Hit.ray_time]; exact h1.2
        · rw [Hit.ray_time]
          rintro t ⟨-, -, rfl | rfl⟩ _ _
          · exact le_refl _
          · exact hle
      · rw [if_neg h1]
        by_cases h2 : st ≤ thi ∧ (thi : EReal) < en
        · rw [if_pos h2]
          refine ⟨⟨ha0, hd, Or.inr (Hit.ray_time ..)⟩, ?_, ?_, ?_⟩
          · rw [Hit.ray_time]; exact h2.1
          · rw [Hit.ray_time]; exact h2.2
          · rw [Hit.ray_time]
            rintro t ⟨-, -, rfl | rfl⟩ hst hen
            · exact absurd ⟨hst, hen⟩ h1
            · exact le_refl _
        · rw [if_neg h2]
          rintro t ⟨-, -, rfl | rfl⟩ hst hen
          · exact h1 ⟨hst, hen⟩
          · exact h2 ⟨hst, hen⟩
    · rw [if_neg hd]
      intro t ht _ _
      exact hd ht.2.1

/-- Sequential composition shared by `HitList::hit` and `BVH::hit`:
    run a first query, shrink the interval's end to its hit time if any,
    run a second query with the shrunk interval, prefer its result. -/
def combineHit (r₁ : Option Hit) (f : EReal → Option Hit) (en : EReal) : Option Hit :=
  match r₁ with
  | some h =>
    match f (h.time : EReal) with
    | some h2 => some h2
    | none => some h
  | none => f en

theorem minspec_seq {c₁ c₂ : ℝ → Prop} {st : ℝ} {en : EReal} {r₁ : Option Hit}
    (f : EReal → Option Hit)
    (h₁ : MinSpec c₁ st en r₁)
    (h₂ : ∀ en', MinSpec c₂ st en' (f en')) :
    MinSpec (fun t => c₁ t ∨ c₂ t) st en (combineHit r₁ f en) := by
  cases r₁ with
  | none =>
    have h2 := h₂ en
    simp only [combineHit]
    cases hf : f en with
    | none =>
      rw [hf] at h2
      intro t ht hst hen
      rcases ht with h | h
      · exact h₁ t h hst hen
      · exact h2 t h hst hen
    | some hh =>
      rw [hf] at h2
      refine ⟨Or.inr h2.1, h2.2.1, h2.2.2.1, ?_⟩
      intro t ht hst hen
      rcases ht with h | h
      · exact (h₁ t h hst hen).elim
      · exact h2.2.2.2 t h hst hen
  | some hh =>
    obtain ⟨hc, hst0, hen0, hmin⟩ := h₁
    have h2 := h₂ (hh.time : EReal)
    simp only [combineHit]
    cases hf : f (hh.time : EReal) with
    | none =>
      rw [hf] at h2
      refine ⟨Or.inl hc, hst0, hen0, ?_⟩
      intro t ht hst hen
      rcases ht with h | h
      · exact hmin t h hst hen
      · by_contra hnot
        push_neg at hnot
        exact h2 t h hst (EReal.coe_lt_coe_iff.mpr hnot)
    | some h2h =>
      rw [hf] at h2
      obtain ⟨hc2, hst2, hen2, hmin2⟩ := h2
      have hlt : h2h.time < hh.time := EReal.coe_lt_coe_iff.mp hen2
      refine ⟨Or.inr hc2, hst2, lt_trans hen2 hen0, ?_⟩
      intro t ht hst hen
      rcases ht with h | h
      · exact le_trans hlt.le (hmin t h hst hen)
      · rcases lt_or_le t hh.time with htlt | htge
        · exact hmin2 t h hst (EReal.coe_lt_coe_iff.mpr htlt)
        · exact le_trans hlt.le htge

/-- A closest-hit query result can be transported along an equivalence
    of candidate-time predicates. -/
theorem minspec_congr {c₁ c₂ : ℝ → Prop} {st : ℝ} {en : EReal} {r : Option Hit}
    (hc : ∀ t, c₁ t ↔ c₂ t) (h : MinSpec c₁ st en r) : MinSpec c₂ st en r := by
  cases r with
  | none => exact fun t ht hst hen => h t ((hc t).mpr ht) hst hen
  | some hh =>
    exact ⟨(hc _).mp h.1, h.2.1, h.2.2.1, fun t ht hst hen => h.2.2.2 t ((hc t).mpr ht) hst hen⟩


/-- One slab-test axis, when the hit point's coordinate `o + t*d` lies
    in the closed slab: the update succeeds, and the surviving bounds
    bracket `t`; if a bound lands exactly on `t` the point sits exactly
    on the slab's entry (for the lower bound) or exit (upper) plane. -/
theorem slabUpdate_of_mem (mn mx o d st : ℝ) (en : EReal) (t : ℝ)
    (hmn : mn ≤ o + t * d) (hmx : o + t * d ≤ mx) :
    (d = 0 ∧ slabUpdate mn mx o d st en = some (st, en)) ∨
    (d ≠ 0 ∧ ∃ lo hi : ℝ,
      slabUpdate mn mx o d st en = some (max st lo, min en (hi : EReal)) ∧
      lo ≤ t ∧ t ≤ hi ∧
      (lo = t → o + t * d = (if d < 0 then mx else mn)) ∧
      (hi = t → o + t * d = (if d < 0 then mn else mx))) := by
  by_cases hd : d = 0
  · left
    refine ⟨hd, ?_⟩
    subst hd
    simp only [mul_zero, add_zero] at hmn hmx
    simp [slabUpdate, hmn, hmx]
  · right
    refine ⟨hd, ?_⟩
    rcases lt_or_gt_of_ne hd with hneg | hpos
    · refine ⟨(mx - o) / d, (mn - o) / d, ?_, ?_, ?_, ?_, ?_⟩
      · simp [slabUpdate, hd, hneg]
      · rw [div_le_iff_of_neg hneg]; linarith
      · rw [le_div_iff_of_neg hneg]; linarith
      · intro h
        rw [div_eq_iff hd] at h
        rw [if_pos hneg]; linarith
      · intro h
        rw [div_eq_iff hd] at h
        rw [if_pos hneg]; linarith
    · refine ⟨(mn - o) / d, (mx - o) / d, ?_, ?_, ?_, ?_, ?_⟩
      · simp [slabUpdate, hd, not_lt.mpr hpos.le]
      · rw [div_le_iff₀ hpos]; linarith
      · rw [le_div_iff₀ hpos]; linarith
      · intro h
        rw [div_eq_iff hd] at h
        rw [if_neg (not_lt.mpr hpos.le)]; linarith
      · intro h
        rw [div_eq_iff hd] at h
        rw [if_neg (not_lt.mpr hpos.le)]; linarith

/-- Invariant propagation through one slab axis: the surviving interval
    still brackets `t`, and a bound can only land exactly on `t` if a
    previously recorded reason (`A`, `B`) holds or the hit point lies
    exactly on this axis' entry/exit plane. -/
theorem slab_step {mn mx o d st t : ℝ} {en : EReal} (A B : Prop)
    (hmn : mn ≤ o + t * d) (hmx : o + t * d ≤ mx)
    (hst : st ≤ t) (hen : (t : EReal) ≤ en)
    (hstA : st = t → A) (henB : en = (t : EReal) → B) :
    ∃ q : ℝ × EReal, slabUpdate mn mx o d st en = some q ∧
      q.1 ≤ t ∧ (t : EReal) ≤ q.2 ∧
      (q.1 = t → A ∨ o + t * d = (if d < 0 then mx else mn)) ∧
      (q.2 = (t : EReal) → B ∨ o + t * d = (if d < 0 then mn else mx)) := by
  rcases slabUpdate_of_mem mn mx o d st en t hmn hmx with ⟨-, heq⟩ |
    ⟨-, lo, hi, heq, hlot, hthi, hloface, hhiface⟩
  · exact ⟨(st, en), heq, hst, hen, fun h => Or.inl (hstA h), fun h => Or.inl (henB h)⟩
  · refine ⟨(max st lo, min en (hi : EReal)), heq, max_le hst hlot,
      le_min hen (EReal.coe_le_coe_iff.mpr hthi), ?_, ?_⟩
    · intro h
      rcases max_choice st lo with hc | hc
      · exact Or.inl (hstA (hc ▸ h))
      · exact Or.inr (hloface (hc ▸ h))
    · intro h
      rcases min_choice en ((hi : ℝ) : EReal) with hc | hc
      · exact Or.inl (henB (hc ▸ h))
      · rw [hc] at h
        exact Or.inr (hhiface (EReal.coe_eq_coe_iff.mp h))

/-- Componentwise box inclusion (`inner` fits inside `outer`). -/
def boxLE (inner outer : AABB) : Prop :=
  outer.min.x ≤ inner.min.x ∧ outer.min.y ≤ inner.min.y ∧ outer.min.z ≤ inner.min.z ∧
  inner.max.x ≤ outer.max.x ∧ inner.max.y ≤ outer.max.y ∧ inner.max.z ≤ outer.max.z

theorem boxLE_refl (a : AABB) : boxLE a a :=
  ⟨le_refl _, le_refl _, le_refl _, le_refl _, le_refl _, le_refl _⟩

theorem boxLE_trans {a b c : AABB} (h1 : boxLE a b) (h2 : boxLE b c) : boxLE a c := by
  obtain ⟨u1, u2, u3, u4, u5, u6⟩ := h1
  obtain ⟨v1, v2, v3, v4, v5, v6⟩ := h2
  exact ⟨le_trans v1 u1, le_trans v2 u2, le_trans v3 u3,
    le_trans u4 v4, le_trans u5 v5, le_trans u6 v6⟩

theorem boxLE_surrounding_left (a b : AABB) : boxLE a (a.surrounding b) := by
  unfold boxLE AABB.surrounding
  refine ⟨min_le_left _ _, min_le_left _ _, min_le_left _ _,
    le_max_left _ _, le_max_left _ _, le_max_left _ _⟩

theorem boxLE_surrounding_right (a b : AABB) : boxLE b (a.surrounding b) := by
  unfold boxLE AABB.surrounding
  refine ⟨min_le_right _ _, min_le_right _ _, min_le_right _ _,
    le_max_right _ _, le_max_right _ _, le_max_right _ _⟩


@[simp] theorem Vec3.add_x (a b : Vec3) : (a + b).x = a.x + b.x := rfl

@[simp] theorem Vec3.add_y (a b : Vec3) : (a + b).y = a.y + b.y := rfl

@[simp] theorem Vec3.add_z (a b : Vec3) : (a + b).z = a.z + b.z := rfl

@[simp] theorem Vec3.sub_x (a b : Vec3) : (a - b).x = a.x - b.x := rfl

@[simp] theorem Vec3.sub_y (a b : Vec3) : (a - b).y = a.y - b.y := rfl

@[simp] theorem Vec3.sub_z (a b : Vec3) : (a - b).z = a.z - b.z := rfl

@[simp] theorem Vec3.neg_x (a : Vec3) : (-a).x = -a.x := rfl

@[simp] theorem Vec3.neg_y (a : Vec3) : (-a).y = -a.y := rfl

@[simp] theorem Vec3.neg_z (a : Vec3) : (-a).z = -a.z := rfl

@[simp] theorem Vec3.smul_x (c : ℝ) (a : Vec3) : (c • a).x = c * a.x := rfl

@[simp] theorem Vec3.smul_y (c : ℝ) (a : Vec3) : (c • a).y = c * a.y := rfl

@[simp] theorem Vec3.smul_z (c : ℝ) (a : Vec3) : (c • a).z = c * a.z := rfl

@[simp] theorem Vec3.div_x (a : Vec3) (c : ℝ) : (a / c).x = a.x / c := rfl

@[simp] theorem Vec3.div_y (a : Vec3) (c : ℝ) : (a / c).y = a.y / c := rfl

@[simp] theorem Vec3.div_z (a : Vec3) (c : ℝ) : (a / c).z = a.z / c := rfl

@[simp] theorem Ray.at_x (r : Ray) (t : ℝ) : (r.at t).x = r.origin.x + t * r.dir.x := rfl

@[simp] theorem Ray.at_y (r : Ray) (t : ℝ) : (r.at t).y = r.origin.y + t * r.dir.y := rfl

@[simp] theorem Ray.at_z (r : Ray) (t : ℝ) : (r.at t).z = r.origin.z + t * r.dir.z := rfl

theorem ite_mem_or {p : Prop} [Decidable p] {a b c : ℝ} (h : a = if p then b else c) :
    a = b ∨ a = c := by
  split_ifs at h
  · exact Or.inl h
  · exact Or.inr h

/-- A coordinate of a point on the sphere's surface that also lies on a
    wall of an enclosing box must be at the sphere's own axis extreme. -/
theorem face_sq {cx r px mnx mxx : ℝ} (hr : 0 < r)
    (hmn : mnx ≤ cx - r) (hmx : cx + r ≤ mxx)
    (hsq : (px - cx) ^ 2 ≤ r ^ 2)
    (hface : px = mnx ∨ px = mxx) : (px - cx) ^ 2 = r ^ 2 := by
  have hlo : cx - r ≤ px := by nlinarith [sq_nonneg (px - cx + r)]
  have hhi : px ≤ cx + r := by nlinarith [sq_nonneg (px - cx - r)]
  rcases hface with h | h
  · have hx : px = cx - r := le_antisymm (by linarith) (by linarith)
    rw [hx]; ring
  · have hx : px = cx + r := le_antisymm hhi (by linarith)
    rw [hx]; ring

set_option maxHeartbeats 1600000 in
/-- Slab soundness: if a point of a positive-radius sphere whose
    bounding box the node box encloses is struck strictly after the
    interval's start and before its end, the node box's slab test
    passes. -/
theorem AABB.hit_of_sphere_point (bb : AABB) (sp : Sphere) (ray : Ray) (st t : ℝ)
    (en : EReal) (hr : 0 < sp.radius)
    (hsub : boxLE sp.box bb)
    (hP : (ray.at t - sp.center).normSq = sp.radius ^ 2)
    (h1 : st < t) (h2 : (t : EReal) < en) :
    bb.hit ray st en := by
  obtain ⟨s1, s2, s3, s4, s5, s6⟩ := hsub
  have e1 : bb.min.x ≤ sp.center.x - sp.radius := s1
  have e2 : bb.min.y ≤ sp.center.y - sp.radius := s2
  have e3 : bb.min.z ≤ sp.center.z - sp.radius := s3
  have e4 : sp.center.x + sp.radius ≤ bb.max.x := s4
  have e5 : sp.center.y + sp.radius ≤ bb.max.y := s5
  have e6 : sp.center.z + sp.radius ≤ bb.max.z := s6
  have hP' : (ray.origin.x + t * ray.dir.x - sp.center.x) ^ 2 +
      (ray.origin.y + t * ray.dir.y - sp.center.y) ^ 2 +
      (ray.origin.z + t * ray.dir.z - sp.center.z) ^ 2 = sp.radius ^ 2 := by
    simpa [Vec3.normSq] using hP
  have hsqx : (ray.origin.x + t * ray.dir.x - sp.center.x) ^ 2 ≤ sp.radius ^ 2 := by
    linarith [sq_nonneg (ray.origin.y + t * ray.dir.y - sp.center.y),
      sq_nonneg (ray.origin.z + t * ray.dir.z - sp.center.z)]
  have hsqy : (ray.origin.y + t * ray.dir.y - sp.center.y) ^ 2 ≤ sp.radius ^ 2 := by
    linarith [sq_nonneg (ray.origin.x + t * ray.dir.x - sp.center.x),
      sq_nonneg (ray.origin.z + t * ray.dir.z - sp.center.z)]
  have hsqz : (ray.origin.z + t * ray.dir.z - sp.center.z) ^ 2 ≤ sp.radius ^ 2 := by
    linarith [sq_nonneg (ray.origin.x + t * ray.dir.x - sp.center.x),
      sq_nonneg (ray.origin.y + t * ray.dir.y - sp.center.y)]
  have hxlo : sp.center.x - sp.radius ≤ ray.origin.x + t * ray.dir.x := by
    nlinarith [sq_nonneg (ray.origin.x + t * ray.dir.x - sp.center.x + sp.radius)]
  have hxhi : ray.origin.x + t * ray.dir.x ≤ sp.center.x + sp.radius := by
    nlinarith [sq_nonneg (ray.origin.x + t * ray.dir.x - sp.center.x - sp.radius)]
  have hylo : sp.center.y - sp.radius ≤ ray.origin.y + t * ray.dir.y := by
    nlinarith [sq_nonneg (ray.origin.y + t * ray.dir.y - sp.center.y + sp.radius)]
  have hyhi : ray.origin.y + t * ray.dir.y ≤ sp.center.y + sp.radius := by
    nlinarith [sq_nonneg (ray.origin.y + t * ray.dir.y - sp.center.y - sp.radius)]
  have hzlo : sp.center.z - sp.radius ≤ ray.origin.z + t * ray.dir.z := by
    nlinarith [sq_nonneg (ray.origin.z + t * ray.dir.z - sp.center.z + sp.radius)]
  have hzhi : ray.origin.z + t * ray.dir.z ≤ sp.center.z + sp.radius := by
    nlinarith [sq_nonneg (ray.origin.z + t * ray.dir.z - sp.center.z - sp.radius)]
  have hmem1 : bb.min.x ≤ ray.origin.x + t * ray.dir.x := le_trans e1 hxlo
  have hmem2 : ray.origin.x + t * ray.dir.x ≤ bb.max.x := le_trans hxhi e4
  have hmem3 : bb.min.y ≤ ray.origin.y + t * ray.dir.y := le_trans e2 hylo
  have hmem4 : ray.origin.y + t * ray.dir.y ≤ bb.max.y := le_trans hyhi e5
  have hmem5 : bb.min.z ≤ ray.origin.z + t * ray.dir.z := le_trans e3 hzlo
  have hmem6 : ray.origin.z + t * ray.dir.z ≤ bb.max.z := le_trans hzhi e6
  obtain ⟨q1, heq1, hq1t, hq1e, hA1, hB1⟩ :=
    @slab_step bb.min.x bb.max.x ray.origin.x ray.dir.x st t en
      False False hmem1 hmem2 h1.le h2.le
      (fun h => absurd h (ne_of_lt h1)) (fun h => absurd h (ne_of_gt h2))
  obtain ⟨q2, heq2, hq2t, hq2e, hA2, hB2⟩ :=
    @slab_step bb.min.y bb.max.y ray.origin.y ray.dir.y q1.1 t q1.2
      _ _ hmem3 hmem4 hq1t hq1e hA1 hB1
  obtain ⟨q3, heq3, hq3t, hq3e, hA3, hB3⟩ :=
    @slab_step bb.min.z bb.max.z ray.origin.z ray.dir.z q2.1 t q2.2
      _ _ hmem5 hmem6 hq2t hq2e hA2 hB2
  refine ⟨q3, ?_, ?_⟩
  · unfold AABB.hitRange
    rw [heq1]
    rw [Option.some_bind]
    rw [heq2]
    rw [Option.some_bind]
    exact heq3
  · by_contra hcon
    push_neg at hcon
    have hgeq : (q3.1 : EReal) = (t : EReal) ∧ q3.2 = (t : EReal) := by
      have ha : (q3.1 : EReal) ≤ (t : EReal) := EReal.coe_le_coe_iff.mpr hq3t
      constructor
      · exact le_antisymm ha (le_trans hq3e hcon)
      · exact le_antisymm (le_trans hcon ha) hq3e
    have hA := hA3 (EReal.coe_eq_coe_iff.mp hgeq.1)
    have hB := hB3 hgeq.2
    have facex : ray.origin.x + t * ray.dir.x = bb.min.x ∨
        ray.origin.x + t * ray.dir.x = bb.max.x →
        (ray.origin.x + t * ray.dir.x - sp.center.x) ^ 2 = sp.radius ^ 2 :=
      fun h => face_sq hr e1 e4 hsqx h
    have facey : ray.origin.y + t * ray.dir.y = bb.min.y ∨
        ray.origin.y + t * ray.dir.y = bb.max.y →
        (ray.origin.y + t * ray.dir.y - sp.center.y) ^ 2 = sp.radius ^ 2 :=
      fun h => face_sq hr e2 e5 hsqy h
    have facez : ray.origin.z + t * ray.dir.z = bb.min.z ∨
        ray.origin.z + t * ray.dir.z = bb.max.z →
        (ray.origin.z + t * ray.dir.z - sp.center.z) ^ 2 = sp.radius ^ 2 :=
      fun h => face_sq hr e3 e6 hsqz h
    rcases hA with ((hF | hFx) | hFy) | hFz
    · exact hF.elim
    · rcases hB with ((hG | hGx) | hGy) | hGz
      · exact hG.elim
      · have : bb.min.x = bb.max.x := by split_ifs at hFx hGx <;> linarith
        linarith
      · have f1 := facex (Or.symm (ite_mem_or hFx))
        have f2 := facey (ite_mem_or hGy)
        linarith [sq_nonneg (ray.origin.z + t * ray.dir.z - sp.center.z), pow_pos hr 2]
      · have f1 := facex (Or.symm (ite_mem_or hFx))
        have f2 := facez (ite_mem_or hGz)
        linarith [sq_nonneg (ray.origin.y + t * ray.dir.y - sp.center.y), pow_pos hr 2]
    · rcases hB with ((hG | hGx) | hGy) | hGz
      · exact hG.elim
      · have f1 := facey (Or.symm (ite_mem_or hFy))
        have f2 := facex (ite_mem_or hGx)
        linarith [sq_nonneg (ray.origin.z + t * ray.dir.z - sp.center.z), pow_pos hr 2]
      · have : bb.min.y = bb.max.y := by split_ifs at hFy hGy <;> linarith
        linarith
      · have f1 := facey (Or.symm (ite_mem_or hFy))
        have f2 := facez (ite_mem_or hGz)
        linarith [sq_nonneg (ray.origin.x + t * ray.dir.x - sp.center.x), pow_pos hr 2]
    · rcases hB with ((hG | hGx) | hGy) | hGz
      · exact hG.elim
      · have f1 := facez (Or.symm (ite_mem_or hFz))
        have f2 := facex (ite_mem_or hGx)
        linarith [sq_nonneg (ray.origin.y + t * ray.dir.y - sp.center.y), pow_pos hr 2]
      · have f1 := facez (Or.symm (ite_mem_or hFz))
        have f2 := facey (ite_mem_or hGy)
        linarith [sq_nonneg (ray.origin.x + t * ray.dir.x - sp.center.x), pow_pos hr 2]
      · have : bb.min.z = bb.max.z := by split_ifs at hFz hGz <;> linarith
        linarith

/-- A root of the sphere quadratic is a parameter at which the ray
    meets the sphere's surface. -/
theorem Sphere.isRoot_surface {sp : Sphere} {ray : Ray} {t : ℝ} (h : sp.isRoot ray t) :
    (ray.at t - sp.center).normSq = sp.radius ^ 2 := by
  obtain ⟨ha, hd, ht⟩ := h
  have hexp : (ray.at t - sp.center).normSq =
      (ray.origin - sp.center).normSq +
        2 * t * ((ray.origin - sp.center).dot ray.dir) + t ^ 2 * ray.dir.normSq := by
    simp only [Vec3.normSq, Vec3.dot, Vec3.sub_x, Vec3.sub_y, Vec3.sub_z,
      Ray.at_x, Ray.at_y, Ray.at_z]
    ring
  set a := ray.dir.normSq with hA
  set hb := (ray.origin - sp.center).dot ray.dir with hB
  set cc := (ray.origin - sp.center).normSq - sp.radius ^ 2 with hC
  have hs : Real.sqrt (hb ^ 2 - a * (cc)) ^ 2 = hb ^ 2 - a * cc := Real.sq_sqrt hd
  have hquad : a * t ^ 2 + 2 * hb * t + cc = 0 := by
    rcases ht with rfl | rfl
    · field_simp
      nlinarith [hs]
    · field_simp
      nlinarith [hs]
  have hcc : (ray.origin - sp.center).normSq = cc + sp.radius ^ 2 := by rw [hC]; ring
  rw [hexp, hcc]
  nlinarith [hquad]

/-- Two closest-hit queries over the same candidate set agree: both
    miss together, and when both hit, the hit times coincide. -/
theorem minspec_unique {c : ℝ → Prop} {st : ℝ} {en : EReal} {r₁ r₂ : Option Hit}
    (h₁ : MinSpec c st en r₁) (h₂ : MinSpec c st en r₂) :
    (r₁ = none ↔ r₂ = none) ∧
      ∀ a b, r₁ = some a → r₂ = some b → a.time = b.time := by
  cases r₁ with
  | none =>
    cases r₂ with
    | none => exact ⟨Iff.rfl, by simp⟩
    | some b =>
      exact absurd (h₁ b.time h₂.1 h₂.2.1 h₂.2.2.1) (by simp)
  | some a =>
    cases r₂ with
    | none =>
      exact absurd (h₂ a.time h₁.1 h₁.2.1 h₁.2.2.1) (by simp)
    | some b =>
      refine ⟨by simp, ?_⟩
      rintro a' b' ha hb
      cases ha
      cases hb
      exact le_antisymm (h₁.2.2.2 b.time h₂.1 h₂.2.1 h₂.2.2.1)
        (h₂.2.2.2 a.time h₁.1 h₁.2.1 h₁.2.2.1)

/-- The primitive `Hittable`s a scene stores in its BVH lists: static
    spheres and moving spheres (`random_scene` in `main.rs` pushes both
    kinds into `bvh_list`). -/
inductive Prim where
  | sphere (s : Sphere)
  | moving (m : MovingSphere)

/-- Mirrors `Hittable::hit` dispatch over the primitive kinds. -/
def Prim.hit : Prim → Ray → ℝ → EReal → Option Hit
  | .sphere s, ray, st, en => s.hit ray st en
  | .moving m, ray, st, en => m.hit ray st en

/-- The static sphere a primitive presents to a ray cast at time `τ`:
    `MovingSphere::hit` resolves `self.center(ray.time)` first and then
    runs the same quadratic as `Sphere::hit`. -/
def Prim.sphereAt : Prim → ℝ → Sphere
  | .sphere s, _ => s
  | .moving m, τ => ⟨m.center τ, m.radius, m.material⟩

/-- A primitive's radius. -/
def Prim.radius : Prim → ℝ
  | .sphere s => s.radius
  | .moving m => m.radius

/-- Mirrors `Hittable::bounding_box` over the primitive kinds: a
    sphere's box ignores the shutter interval; a moving sphere's box
    (`shape.rs` lines 432-443) surrounds its boxes at the interval's
    start and at its end. -/
def Prim.box : Prim → ℝ × ℝ → AABB
  | .sphere s, _ => s.box
  | .moving m, shut =>
    AABB.surrounding
      ⟨m.center shut.1 - ⟨m.radius, m.radius, m.radius⟩,
       m.center shut.1 + ⟨m.radius, m.radius, m.radius⟩⟩
      ⟨m.center shut.2 - ⟨m.radius, m.radius, m.radius⟩,
       m.center shut.2 + ⟨m.radius, m.radius, m.radius⟩⟩

theorem Prim.hit_eq_sphereAt (p : Prim) (ray : Ray) (st : ℝ) (en : EReal) :
    p.hit ray st en = (p.sphereAt ray.time).hit ray st en := by
  cases p <;> rfl

theorem Prim.sphereAt_radius (p : Prim) (τ : ℝ) :
    (p.sphereAt τ).radius = p.radius := by
  cases p <;> rfl

/-- The `Hittable`s reachable from a constructed scene, as a closed
    tree: the primitives, the always-miss `Dummy` placeholder (modelled
    from the spec, its definition living in the newer `shape.rs` that is
    not under `src/`), and BVH nodes with their stored bounding box and
    two children. -/
inductive HTree where
  | prim (p : Prim)
  | dummy
  | node (box : AABB) (left : HTree) (right : HTree)

/-- Mirrors `Hittable::hit` across the closed kinds: the primitives'
    own hit routines, the `Dummy` always-miss, and `BVH::hit` (`hit.rs`
    lines 249-268): test the stored box, probe the left child, shrink
    the interval's end to a left hit's time, probe the right child,
    prefer the right hit. -/
def HTree.hit : HTree → Ray → ℝ → EReal → Option Hit
  | .prim p, ray, st, en => p.hit ray st en
  | .dummy, _, _, _ => none
  | .node bb l r, ray, st, en =>
    if bb.hit ray st en then
      match l.hit ray st en with
      | some hl =>
        match r.hit ray st (hl.time : EReal) with
        | some hr => some hr
        | none => some hl
      | none => r.hit ray st en
    else none

/-- Mirrors `HitList::hit`: fold over the objects, shrinking the
    allowed interval's end to each hit found, keeping the last (hence
    nearest accepted) hit. -/
def hitObjs : List HTree → Ray → ℝ → EReal → Option Hit
  | [], _, _, _ => none
  | o :: rest, ray, st, en =>
    match o.hit ray st en with
    | some h =>
      match hitObjs rest ray st (h.time : EReal) with
      | some h2 => some h2
      | none => some h
    | none => hitObjs rest ray st en

/-- The candidate hit times of a primitive for a given ray: the roots of
    its effective sphere's quadratic at the ray's time. -/
def Prim.isRoot (p : Prim) (ray : Ray) (t : ℝ) : Prop :=
  (p.sphereAt ray.time).isRoot ray t

theorem Prim.hitMinspec (p : Prim) (ray : Ray) (st : ℝ) (en : EReal) :
    MinSpec (p.isRoot ray) st en (p.hit ray st en) := by
  rw [Prim.hit_eq_sphereAt]
  exact Sphere.hit_minspec (p.sphereAt ray.time) ray st en

/-- The primitive leaves reachable in a `Hittable` tree. -/
def HTree.leaves : HTree → List Prim
  | .prim p => [p]
  | .dummy => []
  | .node _ l r => l.leaves ++ r.leaves

/-- The candidate hit times of a whole `HitList`/BVH subtree: some
    primitive leaf has a root there. -/
def treeCand (tr : HTree) (ray : Ray) (t : ℝ) : Prop :=
  ∃ p ∈ tr.leaves, p.isRoot ray t

theorem affine_between {p q a b τ : ℝ} (h1 : a ≤ τ) (h2 : τ ≤ b) :
    min (p + q * a) (p + q * b) ≤ p + q * τ ∧
      p + q * τ ≤ max (p + q * a) (p + q * b) := by
  rcases le_total 0 q with hq | hq
  · exact ⟨le_trans (min_le_left _ _) (by nlinarith),
      le_trans (by nlinarith) (le_max_right _ _)⟩
  · exact ⟨le_trans (min_le_right _ _) (by nlinarith),
      le_trans (by nlinarith) (le_max_left _ _)⟩

/-- A linear interpolation evaluated inside `[a, b]` lies between its
    values at `a` and at `b`. -/
theorem interp_coord_between {cx dx t0 t1 a b τ : ℝ} (h1 : a ≤ τ) (h2 : τ ≤ b) :
    min (cx + (a - t0) / (t1 - t0) * dx) (cx + (b - t0) / (t1 - t0) * dx) ≤
      cx + (τ - t0) / (t1 - t0) * dx ∧
      cx + (τ - t0) / (t1 - t0) * dx ≤
        max (cx + (a - t0) / (t1 - t0) * dx) (cx + (b - t0) / (t1 - t0) * dx) := by
  have hrw : ∀ x : ℝ, cx + (x - t0) / (t1 - t0) * dx =
      (cx - dx / (t1 - t0) * t0) + dx / (t1 - t0) * x := by
    intro x
    ring
  rw [hrw a, hrw b, hrw τ]
  exact affine_between h1 h2

/-- At any ray time inside the shutter interval, a primitive's
    effective sphere's box fits inside the primitive's stored bounding
    box: a moving sphere's center interpolates linearly, so each of its
    coordinates stays between its values at the interval's endpoints. -/
theorem Prim.sphereAt_box_le (p : Prim) (shut : ℝ × ℝ) (τ : ℝ)
    (h1 : shut.1 ≤ τ) (h2 : τ ≤ shut.2) :
    boxLE ((p.sphereAt τ).box) (p.box shut) := by
  cases p with
  | sphere s => exact boxLE_refl _
  | moving m =>
    obtain ⟨hx1, hx2⟩ :=
      @interp_coord_between m.c0.x (m.c1.x - m.c0.x) m.t0 m.t1 shut.1 shut.2 τ h1 h2
    obtain ⟨hy1, hy2⟩ :=
      @interp_coord_between m.c0.y (m.c1.y - m.c0.y) m.t0 m.t1 shut.1 shut.2 τ h1 h2
    obtain ⟨hz1, hz2⟩ :=
      @interp_coord_between m.c0.z (m.c1.z - m.c0.z) m.t0 m.t1 shut.1 shut.2 τ h1 h2
    simp only [Prim.sphereAt, Prim.box, Sphere.box, boxLE, AABB.surrounding,
      MovingSphere.center, Vec3.add_x, Vec3.add_y, Vec3.add_z, Vec3.sub_x,
      Vec3.sub_y, Vec3.sub_z, Vec3.smul_x, Vec3.smul_y, Vec3.smul_z]
    refine ⟨?_, ?_, ?_, ?_, ?_, ?_⟩
    · rw [min_sub_sub_right]
      exact sub_le_sub_right hx1 _
    · rw [min_sub_sub_right]
      exact sub_le_sub_right hy1 _
    · rw [min_sub_sub_right]
      exact sub_le_sub_right hz1 _
    · rw [max_add_add_right]
      exact add_le_add_right hx2 _
    · rw [max_add_add_right]
      exact add_le_add_right hy2 _
    · rw [max_add_add_right]
      exact add_le_add_right hz2 _

/-- Structural well-formedness of a constructed BVH at a shutter
    interval: every node's stored box encloses the stored bounding
    boxes of all primitive leaves below it. -/
inductive WFT (shut : ℝ × ℝ) : HTree → Prop where
  | prim (p : Prim) : WFT shut (.prim p)
  | dummy : WFT shut .dummy
  | node (bb : AABB) (l r : HTree) :
      WFT shut l → WFT shut r →
      (∀ p ∈ l.leaves, boxLE (p.box shut) bb) →
      (∀ p ∈ r.leaves, boxLE (p.box shut) bb) →
      WFT shut (.node bb l r)

/-- BVH traversal is a correct closest-hit query over the subtree's
    leaves' candidates, for rays cast at a time inside the shutter
    interval the boxes were built for, positive radii, and any query
    interval whose start is not itself a candidate root (the box test
    can only prune empty subqueries). -/
theorem tree_minspec {ray : Ray} {st : ℝ} {shut : ℝ × ℝ} {tr : HTree}
    (hwf : WFT shut tr) (hτ1 : shut.1 ≤ ray.time) (hτ2 : ray.time ≤ shut.2) :
    (∀ p ∈ tr.leaves, 0 < p.radius) →
    (∀ p ∈ tr.leaves, ∀ τ, p.isRoot ray τ → τ ≠ st) →
    ∀ en, MinSpec (treeCand tr ray) st en (tr.hit ray st en) := by
  induction hwf with
  | prim p =>
    intro _ _ en
    refine minspec_congr (fun t => ?_) (Prim.hitMinspec p ray st en)
    simp [treeCand, HTree.leaves]
  | dummy =>
    intro _ _ en t ht _ _
    simp [treeCand, HTree.leaves] at ht
  | node bb l r hwl hwr covl covr ihl ihr =>
    intro hrad hroot en
    have hradl : ∀ p ∈ l.leaves, 0 < p.radius := fun p hp =>
      hrad p (by simp [HTree.leaves, hp])
    have hradr : ∀ p ∈ r.leaves, 0 < p.radius := fun p hp =>
      hrad p (by simp [HTree.leaves, hp])
    have hrootl : ∀ p ∈ l.leaves, ∀ τ, p.isRoot ray τ → τ ≠ st := fun p hp =>
      hroot p (by simp [HTree.leaves, hp])
    have hrootr : ∀ p ∈ r.leaves, ∀ τ, p.isRoot ray τ → τ ≠ st := fun p hp =>
      hroot p (by simp [HTree.leaves, hp])
    have ihl' := ihl hradl hrootl
    have ihr' := ihr hradr hrootr
    by_cases hbox : bb.hit ray st en
    · have hstep : (HTree.node bb l r).hit ray st en =
          combineHit (l.hit ray st en) (fun en' => r.hit ray st en') en := by
        simp only [HTree.hit, hbox, if_true]
        rfl
      rw [hstep]
      refine minspec_congr (fun t => ?_) (minspec_seq _ (ihl' en) ihr')
      constructor
      · rintro (⟨p, hp, hr⟩ | ⟨p, hp, hr⟩)
        · exact ⟨p, by simp [HTree.leaves, hp], hr⟩
        · exact ⟨p, by simp [HTree.leaves, hp], hr⟩
      · rintro ⟨p, hp, hr⟩
        simp only [HTree.leaves, List.mem_append] at hp
        rcases hp with h | h
        · exact Or.inl ⟨p, h, hr⟩
        · exact Or.inr ⟨p, h, hr⟩
    · have hstep : (HTree.node bb l r).hit ray st en = none := by
        simp only [HTree.hit, hbox, if_false]
      rw [hstep]
      intro t ht hst hen
      obtain ⟨p, hp, hr⟩ := ht
      simp only [HTree.leaves, List.mem_append] at hp
      have hcov : boxLE (p.box shut) bb := by
        rcases hp with h | h
        · exact covl p h
        · exact covr p h
      have hcov' : boxLE ((p.sphereAt ray.time).box) bb :=
        boxLE_trans (Prim.sphereAt_box_le p shut ray.time hτ1 hτ2) hcov
      have hradp : 0 < (p.sphereAt ray.time).radius := by
        rw [Prim.sphereAt_radius]
        rcases hp with h | h
        · exact hradl p h
        · exact hradr p h
      have hne : t ≠ st := by
        rcases hp with h | h
        · exact hrootl p h t hr
        · exact hrootr p h t hr
      have hstlt : st < t := lt_of_le_of_ne hst (Ne.symm hne)
      have hr' : (p.sphereAt ray.time).isRoot ray t := hr
      exact hbox (AABB.hit_of_sphere_point bb (p.sphereAt ray.time) ray st t en hradp
        hcov' (Sphere.isRoot_surface hr') hstlt hen)

/-- `HitList::hit` over any objects whose own hit functions are correct
    closest-hit queries is itself a correct closest-hit query over the
    union of their candidates. -/
theorem hitObjs_minspec {ray : Ray} {st : ℝ} (objs : List HTree)
    (h : ∀ o ∈ objs, ∀ en', MinSpec (treeCand o ray) st en' (o.hit ray st en')) :
    ∀ en, MinSpec (fun t => ∃ o ∈ objs, treeCand o ray t) st en
      (hitObjs objs ray st en) := by
  induction objs with
  | nil =>
    intro en t ht _ _
    simp at ht
  | cons o rest ih =>
    intro en
    have hstep : hitObjs (o :: rest) ray st en =
        combineHit (o.hit ray st en) (fun en' => hitObjs rest ray st en') en := rfl
    rw [hstep]
    have ih' := ih (fun o' ho' => h o' (List.mem_cons_of_mem _ ho'))
    refine minspec_congr (fun t => ?_)
      (minspec_seq _ (h o (List.mem_cons_self _ _) en) ih')
    constructor
    · rintro (hc | ⟨o', ho', hc⟩)
      · exact ⟨o, List.mem_cons_self _ _, hc⟩
      · exact ⟨o', List.mem_cons_of_mem _ ho', hc⟩
    · rintro ⟨o', ho', hc⟩
      rcases List.mem_cons.mp ho' with rfl | ho'
      · exact Or.inl hc
      · exact Or.inr ⟨o', ho', hc⟩

/-- Mirrors `Hittable::bounding_box` on the values the construction
    stores: a primitive's box at the shutter interval, or a node's
    stored box.  The `Dummy` has no box; the construction never asks for
    one, so any value serves. -/
def rootBox (shut : ℝ × ℝ) : HTree → AABB
  | .prim p => p.box shut
  | .dummy => ⟨⟨0, 0, 0⟩, ⟨0, 0, 0⟩⟩
  | .node bb _ _ => bb

/-- All trees reachable by `BVH::from_list`/`inner_list` (`hit.rs`
    lines 213-246) from a list of primitives at a shutter interval, with
    the sort outcome abstracted to an arbitrary permutation (the
    randomized stateful comparator can reorder the list arbitrarily):
    one child wraps a `Dummy` on the left; two children are popped (last
    element first); more are sorted, split at the midpoint `len / 2`,
    and recursed, the node's box being the `surrounding` of the
    children's boxes. -/
inductive Built (shut : ℝ × ℝ) : List Prim → HTree → Prop where
  | single (p : Prim) : Built shut [p] (.node (p.box shut) .dummy (.prim p))
  | pair (a b : Prim) :
      Built shut [a, b]
        (.node (AABB.surrounding (b.box shut) (a.box shut)) (.prim b) (.prim a))
  | split (l l' : List Prim) (tl tr : HTree) :
      3 ≤ l.length → l'.Perm l →
      Built shut (l'.take (l.length / 2)) tl →
      Built shut (l'.drop (l.length / 2)) tr →
      Built shut l (.node ((rootBox shut tl).surrounding (rootBox shut tr)) tl tr)

/-- A constructed BVH is well-formed, its leaves are a permutation of
    the input list, and its root box covers every leaf's box. -/
theorem Built.props {shut : ℝ × ℝ} {l : List Prim} {tr : HTree} (h : Built shut l tr) :
    tr.leaves.Perm l ∧ WFT shut tr ∧
      ∀ p ∈ tr.leaves, boxLE (p.box shut) (rootBox shut tr) := by
  induction h with
  | single p =>
    refine ⟨by simp [HTree.leaves], ?_, ?_⟩
    · refine WFT.node _ _ _ WFT.dummy (WFT.prim p) (by simp [HTree.leaves]) ?_
      intro q hq
      simp [HTree.leaves] at hq
      subst hq
      exact boxLE_refl _
    · intro q hq
      simp [HTree.leaves] at hq
      subst hq
      exact boxLE_refl _
  | pair a b =>
    refine ⟨by simp [HTree.leaves]; exact List.Perm.swap _ _ _, ?_, ?_⟩
    · refine WFT.node _ _ _ (WFT.prim b) (WFT.prim a) ?_ ?_
      · intro q hq
        simp [HTree.leaves] at hq
        subst hq
        exact boxLE_surrounding_left _ _
      · intro q hq
        simp [HTree.leaves] at hq
        subst hq
        exact boxLE_surrounding_right _ _
    · intro q hq
      simp only [HTree.leaves, List.mem_append] at hq
      rcases hq with h | h
      · simp [HTree.leaves] at h
        subst h
        exact boxLE_surrounding_left _ _
      · simp [HTree.leaves] at h
        subst h
        exact boxLE_surrounding_right _ _
  | split l l' tl tr h3 hperm hbl hbr ihl ihr =>
    obtain ⟨hpl, hwl, hcl⟩ := ihl
    obtain ⟨hpr, hwr, hcr⟩ := ihr
    have hleaves :
        (HTree.node ((rootBox shut tl).surrounding (rootBox shut tr)) tl tr).leaves.Perm l := by
      simp only [HTree.leaves]
      refine ((List.Perm.append hpl hpr).trans ?_).trans hperm
      rw [List.take_append_drop]
    have hcov : ∀ p ∈ tl.leaves ++ tr.leaves,
        boxLE (p.box shut) ((rootBox shut tl).surrounding (rootBox shut tr)) := by
      intro p hp
      rcases List.mem_append.mp hp with h | h
      · exact boxLE_trans (hcl p h) (boxLE_surrounding_left _ _)
      · exact boxLE_trans (hcr p h) (boxLE_surrounding_right _ _)
    refine ⟨hleaves, ?_, ?_⟩
    · exact WFT.node _ _ _ hwl hwr
        (fun p hp => hcov p (List.mem_append_left _ hp))
        (fun p hp => hcov p (List.mem_append_right _ hp))
    · exact hcov

/-- Main BVH-vs-flat-list agreement, for any tree the construction can
    build at a shutter interval, any positive-radius primitives, any ray
    cast at a time inside the shutter interval, and any query interval
    whose start is not itself a root of one of the primitives. -/
theorem bvh_list_agree {shut : ℝ × ℝ} {l : List Prim} {tr : HTree}
    (hb : Built shut l tr) (ray : Ray) (st : ℝ) (en : EReal)
    (hτ1 : shut.1 ≤ ray.time) (hτ2 : ray.time ≤ shut.2)
    (hrad : ∀ p ∈ l, 0 < p.radius)
    (hroot : ∀ p ∈ l, ∀ τ, p.isRoot ray τ → τ ≠ st) :
    (tr.hit ray st en = none ↔ hitObjs (l.map HTree.prim) ray st en = none) ∧
      ∀ h₁ h₂, tr.hit ray st en = some h₁ → hitObjs (l.map HTree.prim) ray st en = some h₂ →
        h₁.time = h₂.time := by
  obtain ⟨hperm, hwf, -⟩ := hb.props
  have hmem : ∀ p, p ∈ tr.leaves ↔ p ∈ l := fun p => hperm.mem_iff
  have m1 : MinSpec (fun t => ∃ p ∈ l, p.isRoot ray t) st en (tr.hit ray st en) := by
    refine minspec_congr (fun t => ?_)
      (tree_minspec hwf hτ1 hτ2 (fun p hp => hrad p ((hmem p).mp hp))
        (fun p hp => hroot p ((hmem p).mp hp)) en)
    unfold treeCand
    constructor
    · rintro ⟨p, hp, hr⟩
      exact ⟨p, (hmem p).mp hp, hr⟩
    · rintro ⟨p, hp, hr⟩
      exact ⟨p, (hmem p).mpr hp, hr⟩
  have m2 : MinSpec (fun t => ∃ p ∈ l, p.isRoot ray t) st en
      (hitObjs (l.map HTree.prim) ray st en) := by
    have helem : ∀ o ∈ l.map HTree.prim, ∀ en',
        MinSpec (treeCand o ray) st en' (o.hit ray st en') := by
      rintro o ho en'
      obtain ⟨p, hp, rfl⟩ := List.mem_map.mp ho
      refine minspec_congr (fun t => ?_) (Prim.hitMinspec p ray st en')
      simp [treeCand, HTree.leaves]
    refine minspec_congr (fun t => ?_) (hitObjs_minspec (l.map HTree.prim) helem en)
    constructor
    · rintro ⟨o, ho, hc⟩
      obtain ⟨p, hp, rfl⟩ := List.mem_map.mp ho
      simp only [treeCand, HTree.leaves, List.mem_singleton] at hc
      obtain ⟨p', rfl, hr⟩ := hc
      exact ⟨p', hp, hr⟩
    · rintro ⟨p, hp, hr⟩
      exact ⟨.prim p, List.mem_map_of_mem _ hp, p, by simp [HTree.leaves], hr⟩
  exact minspec_unique m1 m2

/-- C1 (amended): for every finite list of primitives — static spheres
    and moving spheres, the kinds the program's BVH lists hold — with
    positive radii, every shutter interval and every tree the BVH
    construction can build from the list at it (any RNG seed — the
    randomized sort is covered by quantifying over all permutations),
    every ray cast at a time inside the shutter interval, and every
    query interval whose start is not itself an intersection root of one
    of the primitives, querying the BVH and querying the flat `HitList`
    of the same primitives return no hit in exactly the same cases, and
    when both return a hit the hit times are equal (exactly, in the
    real-number model). -/
theorem C1_bvh_hitlist_agree (shut : ℝ × ℝ) (l : List Prim) (tr : HTree) (ray : Ray)
    (st : ℝ) (en : EReal) (hb : Built shut l tr)
    (hτ1 : shut.1 ≤ ray.time) (hτ2 : ray.time ≤ shut.2)
    (hrad : ∀ p ∈ l, 0 < p.radius)
    (hroot : ∀ p ∈ l, ∀ τ, p.isRoot ray τ → τ ≠ st) :
    (tr.hit ray st en = none ↔ hitObjs (l.map HTree.prim) ray st en = none) ∧
      ∀ h₁ h₂, tr.hit ray st en = some h₁ →
        hitObjs (l.map HTree.prim) ray st en = some h₂ → h₁.time = h₂.time :=
  bvh_list_agree hb ray st en hτ1 hτ2 hrad hroot

/-- Witness for C1: a concrete one-element scene containing a MOVING
    sphere (centers (0,0,0) → (1,0,0) over times 0..1, radius 1), the
    shutter interval (0, 1), a ray cast at time 0, and the query
    interval [0, 10), satisfying all hypotheses, on which the theorem
    yields the agreement. -/
theorem C1_bvh_hitlist_agree_witness :
    ((∀ p ∈ [Prim.moving (MovingSphere.mk ⟨0, 0, 0⟩ ⟨1, 0, 0⟩ 0 1 1 .dbgBlack)],
        0 < p.radius) ∧
      (∀ p ∈ [Prim.moving (MovingSphere.mk ⟨0, 0, 0⟩ ⟨1, 0, 0⟩ 0 1 1 .dbgBlack)], ∀ τ,
        p.isRoot ⟨⟨0, 0, -2⟩, ⟨0, 0, 1⟩, 0⟩ τ → τ ≠ 0)) ∧
    (((HTree.node
          ((Prim.moving (MovingSphere.mk ⟨0, 0, 0⟩ ⟨1, 0, 0⟩ 0 1 1 .dbgBlack)).box (0, 1))
          .dummy
          (.prim (Prim.moving (MovingSphere.mk ⟨0, 0, 0⟩ ⟨1, 0, 0⟩ 0 1 1 .dbgBlack)))).hit
        ⟨⟨0, 0, -2⟩, ⟨0, 0, 1⟩, 0⟩ 0 ((10 : ℝ) : EReal) = none ↔
      hitObjs ([Prim.moving (MovingSphere.mk ⟨0, 0, 0⟩ ⟨1, 0, 0⟩ 0 1 1 .dbgBlack)].map
          HTree.prim)
        ⟨⟨0, 0, -2⟩, ⟨0, 0, 1⟩, 0⟩ 0 ((10 : ℝ) : EReal) = none) ∧
      ∀ h₁ h₂,
        (HTree.node
            ((Prim.moving (MovingSphere.mk ⟨0, 0, 0⟩ ⟨1, 0, 0⟩ 0 1 1 .dbgBlack)).box (0, 1))
            .dummy
            (.prim (Prim.moving (MovingSphere.mk ⟨0, 0, 0⟩ ⟨1, 0, 0⟩ 0 1 1 .dbgBlack)))).hit
          ⟨⟨0, 0, -2⟩, ⟨0, 0, 1⟩, 0⟩ 0 ((10 : ℝ) : EReal) = some h₁ →
        hitObjs ([Prim.moving (MovingSphere.mk ⟨0, 0, 0⟩ ⟨1, 0, 0⟩ 0 1 1 .dbgBlack)].map
            HTree.prim)
          ⟨⟨0, 0, -2⟩, ⟨0, 0, 1⟩, 0⟩ 0 ((10 : ℝ) : EReal) = some h₂ →
        h₁.time = h₂.time) := by
  have hrad : ∀ p ∈ [Prim.moving (MovingSphere.mk ⟨0, 0, 0⟩ ⟨1, 0, 0⟩ 0 1 1 .dbgBlack)],
      (0:ℝ) < p.radius := by
    intro p hp
    simp only [List.mem_singleton] at hp
    subst hp
    norm_num [Prim.radius]
  have hroot : ∀ p ∈ [Prim.moving (MovingSphere.mk ⟨0, 0, 0⟩ ⟨1, 0, 0⟩ 0 1 1 .dbgBlack)],
      ∀ τ, p.isRoot ⟨⟨0, 0, -2⟩, ⟨0, 0, 1⟩, 0⟩ τ → τ ≠ 0 := by
    intro p hp τ hr
    simp only [List.mem_singleton] at hp
    subst hp
    obtain ⟨-, -, hor⟩ := hr
    simp only [Prim.sphereAt, MovingSphere.center, Vec3.dot, Vec3.normSq,
      Vec3.sub_x, Vec3.sub_y, Vec3.sub_z, Vec3.add_x, Vec3.add_y, Vec3.add_z,
      Vec3.smul_x, Vec3.smul_y, Vec3.smul_z] at hor
    norm_num [Real.sqrt_one] at hor
    rcases hor with rfl | rfl <;> norm_num
  exact ⟨⟨hrad, hroot⟩,
    C1_bvh_hitlist_agree (0, 1) _ _ _ _ _ (Built.single _) (by norm_num) (by norm_num)
      hrad hroot⟩

/-- Counterexample to C1 as stated: for the unit sphere at the origin,
    the ray from (0,0,−2) along +z, and the query interval [3, 4) whose
    start coincides with the far root t = 3 (which lies on the bounding
    box's exit face), the flat list reports a hit at t = 3 while the
    BVH built from the single-element list reports no hit: the claim's
    "no hit in exactly the same cases" fails for an interval start that
    is itself a hit distance on a box face. -/
theorem C1_counterexample :
    Built (0, 1) [Prim.sphere (Sphere.mk ⟨0, 0, 0⟩ 1 .dbgBlack)]
      (HTree.node ((Prim.sphere (Sphere.mk ⟨0, 0, 0⟩ 1 .dbgBlack)).box (0, 1)) .dummy
        (.prim (Prim.sphere (Sphere.mk ⟨0, 0, 0⟩ 1 .dbgBlack)))) ∧
    (∃ h, hitObjs ([Prim.sphere (Sphere.mk ⟨0, 0, 0⟩ 1 .dbgBlack)].map HTree.prim)
        ⟨⟨0, 0, -2⟩, ⟨0, 0, 1⟩, 0⟩ 3 ((4 : ℝ) : EReal) = some h ∧ h.time = 3) ∧
    (HTree.node ((Prim.sphere (Sphere.mk ⟨0, 0, 0⟩ 1 .dbgBlack)).box (0, 1)) .dummy
        (.prim (Prim.sphere (Sphere.mk ⟨0, 0, 0⟩ 1 .dbgBlack)))).hit
      ⟨⟨0, 0, -2⟩, ⟨0, 0, 1⟩, 0⟩ 3 ((4 : ℝ) : EReal) = none := by
  refine ⟨Built.single _, ?_, ?_⟩
  · have hs : (Sphere.mk ⟨0, 0, 0⟩ 1 .dbgBlack).hit ⟨⟨0, 0, -2⟩, ⟨0, 0, 1⟩, 0⟩ 3
        ((4 : ℝ) : EReal) =
        some (Hit.ray (Ray.at ⟨⟨0, 0, -2⟩, ⟨0, 0, 1⟩, 0⟩ 3)
          ((Ray.at ⟨⟨0, 0, -2⟩, ⟨0, 0, 1⟩, 0⟩ 3 - ⟨0, 0, 0⟩) / (1 : ℝ)) 3
          ⟨⟨0, 0, -2⟩, ⟨0, 0, 1⟩, 0⟩ .dbgBlack) := by
      simp only [Sphere.hit, Vec3.normSq, Vec3.dot, Vec3.sub_x, Vec3.sub_y, Vec3.sub_z]
      norm_num [Real.sqrt_one]
    simp only [List.map, hitObjs, HTree.hit, Prim.hit, hs]
    exact ⟨_, rfl, by simp⟩
  · have hrange : ((Prim.sphere (Sphere.mk ⟨0, 0, 0⟩ 1 .dbgBlack)).box (0, 1)).hitRange
        ⟨⟨0, 0, -2⟩, ⟨0, 0, 1⟩, 0⟩ 3 ((4 : ℝ) : EReal) =
        some (3, ((3 : ℝ) : EReal)) := by
      simp only [Prim.box, AABB.hitRange, Sphere.box, slabUpdate]
      norm_num
    have hbox : ¬ ((Prim.sphere (Sphere.mk ⟨0, 0, 0⟩ 1 .dbgBlack)).box (0, 1)).hit
        ⟨⟨0, 0, -2⟩, ⟨0, 0, 1⟩, 0⟩ 3 ((4 : ℝ) : EReal) := by
      rintro ⟨p, hp, hlt⟩
      rw [hrange] at hp
      cases hp
      simp only at hlt
      exact absurd (EReal.coe_lt_coe_iff.mp hlt) (lt_irrefl _)
    simp only [HTree.hit, hbox, if_false]

/-- Every hit returned by a `Hittable` lies inside the query interval. -/
theorem HTree.hit_time_mem : ∀ (tr : HTree) (ray : Ray) (st : ℝ) (en : EReal) (h : Hit),
    tr.hit ray st en = some h → st ≤ h.time ∧ (h.time : EReal) < en := by
  intro tr
  induction tr with
  | prim p =>
    intro ray st en h heq
    have m := Prim.hitMinspec p ray st en
    rw [show HTree.hit (.prim p) ray st en = p.hit ray st en from rfl] at heq
    rw [heq] at m
    exact ⟨m.2.1, m.2.2.1⟩
  | dummy =>
    intro ray st en h heq
    exact absurd heq (by simp [HTree.hit])
  | node bb l r ihl ihr =>
    intro ray st en h heq
    by_cases hbox : bb.hit ray st en
    · simp only [HTree.hit, hbox, if_true] at heq
      cases hl : l.hit ray st en with
      | none =>
        rw [hl] at heq
        exact ihr ray st en h heq
      | some hlv =>
        rw [hl] at heq
        dsimp only at heq
        cases hr : r.hit ray st (hlv.time : EReal) with
        | none =>
          rw [hr] at heq
          cases heq
          exact ihl ray st en _ hl
        | some hrv =>
          rw [hr] at heq
          cases heq
          have h1 := ihr ray st _ _ hr
          have h2 := ihl ray st en _ hl
          exact ⟨h1.1, lt_trans h1.2 h2.2⟩
    · simp only [HTree.hit, hbox, if_false] at heq
      exact Option.noConfusion heq

/-- C3: BVH node traversal.  If the ray misses the node's stored box
    the query returns no hit; otherwise the node's result is exactly
    the left-then-right composition: probe the left child, shrink the
    interval's end to the left hit's time when one exists, probe the
    right child with the shrunk interval, and return the right child's
    hit whenever it exists, the left child's hit only when the right
    reports none.  Moreover a returned right-side hit is always
    strictly closer than the left-side hit it overrides. -/
theorem C3_bvh_node_traversal (bb : AABB) (l r : HTree) (ray : Ray) (st : ℝ) (en : EReal) :
    (¬ bb.hit ray st en → (HTree.node bb l r).hit ray st en = none) ∧
    (bb.hit ray st en →
      (HTree.node bb l r).hit ray st en =
        combineHit (l.hit ray st en) (fun en' => r.hit ray st en') en) ∧
    (bb.hit ray st en → ∀ hl hr, l.hit ray st en = some hl →
      r.hit ray st (hl.time : EReal) = some hr →
      (HTree.node bb l r).hit ray st en = some hr ∧ hr.time < hl.time) ∧
    (bb.hit ray st en → ∀ hl, l.hit ray st en = some hl →
      r.hit ray st (hl.time : EReal) = none →
      (HTree.node bb l r).hit ray st en = some hl) := by
  refine ⟨?_, ?_, ?_, ?_⟩
  · intro hbox
    simp only [HTree.hit, hbox, if_false]
  · intro hbox
    simp only [HTree.hit, hbox, if_true]
    rfl
  · intro hbox hl hr heql heqr
    constructor
    · simp only [HTree.hit, hbox, if_true, heql, heqr]
    · exact EReal.coe_lt_coe_iff.mp (HTree.hit_time_mem r ray st _ hr heqr).2
  · intro hbox hl heql heqr
    simp only [HTree.hit, hbox, if_true, heql, heqr]

/-- Witness for C3: a concrete node whose box the concrete ray misses,
    on which the theorem returns no hit. -/
theorem C3_bvh_node_traversal_witness :
    ¬ (AABB.mk ⟨0, 0, 0⟩ ⟨1, 1, 1⟩).hit ⟨⟨5, 5, 5⟩, ⟨1, 0, 0⟩, 0⟩ 0 ((10 : ℝ) : EReal) ∧
    (HTree.node (AABB.mk ⟨0, 0, 0⟩ ⟨1, 1, 1⟩) .dummy .dummy).hit
      ⟨⟨5, 5, 5⟩, ⟨1, 0, 0⟩, 0⟩ 0 ((10 : ℝ) : EReal) = none := by
  have hmiss : ¬ (AABB.mk ⟨0, 0, 0⟩ ⟨1, 1, 1⟩).hit ⟨⟨5, 5, 5⟩, ⟨1, 0, 0⟩, 0⟩ 0
      ((10 : ℝ) : EReal) := by
    rintro ⟨p, hp, hlt⟩
    simp only [AABB.hitRange, slabUpdate] at hp
    norm_num at hp
    exact Option.noConfusion hp
  exact ⟨hmiss,
    (C3_bvh_node_traversal (AABB.mk ⟨0, 0, 0⟩ ⟨1, 1, 1⟩) .dummy .dummy
      ⟨⟨5, 5, 5⟩, ⟨1, 0, 0⟩, 0⟩ 0 ((10 : ℝ) : EReal)).1 hmiss⟩

/-- The comparator of `BVH::inner_list` applied to primitives: fetch
    both bounding boxes at the shutter interval
    (`a.bounding_box(shutter_time)`), then compare with a freshly drawn
    random axis. -/
def primSortCmp (shut : ℝ × ℝ) (r : Rng) (a b : Prim) : Ordering × Rng :=
  bvhSortCmp r (a.box shut) (b.box shut)

/-- Modelled from the spec: `Vec::sort_unstable_by` (Rust standard
    library) with the stateful comparator of `BVH::inner_list`.  The
    library leaves the comparison schedule unspecified; we model one
    concrete schedule (insertion sort), which exercises the comparator
    statefully exactly as any schedule does: one generator draw per
    comparison, threaded left to right. -/
def insertRng (shut : ℝ × ℝ) (r : Rng) (a : Prim) : List Prim → List Prim × Rng
  | [] => ([a], r)
  | b :: t =>
    if (primSortCmp shut r a b).1 = .gt then
      ((insertRng shut (primSortCmp shut r a b).2 a t).1.cons b,
        (insertRng shut (primSortCmp shut r a b).2 a t).2)
    else
      (a :: b :: t, (primSortCmp shut r a b).2)

/-- Modelled from the spec: the sort pass of `BVH::inner_list`,
    threading the generator through every comparison. -/
def sortRng (shut : ℝ × ℝ) (r : Rng) : List Prim → List Prim × Rng
  | [] => ([], r)
  | a :: t => insertRng shut (sortRng shut r t).2 a (sortRng shut r t).1

theorem insertRng_perm (shut : ℝ × ℝ) (a : Prim) :
    ∀ (l : List Prim) (r : Rng), ((insertRng shut r a l).1).Perm (a :: l) := by
  intro l
  induction l with
  | nil => intro r; simp [insertRng]
  | cons b t ih =>
    intro r
    simp only [insertRng]
    split
    · exact (((ih _).cons b).trans (List.Perm.swap a b t))
    · exact List.Perm.refl _

theorem sortRng_perm (shut : ℝ × ℝ) :
    ∀ (l : List Prim) (r : Rng), ((sortRng shut r l).1).Perm l := by
  intro l
  induction l with
  | nil => intro r; simp [sortRng]
  | cons a t ih =>
    intro r
    simp only [sortRng]
    exact (insertRng_perm shut a _ _).trans ((ih _).cons a)

theorem sortRng_length (shut : ℝ × ℝ) (l : List Prim) (r : Rng) :
    ((sortRng shut r l).1).length = l.length :=
  (sortRng_perm shut l r).length_eq

/-- Mirrors `BVH::inner_list` (`hit.rs` lines 213-246): one child pairs
    a left `Dummy` with the element; two children are popped last-first;
    more are sorted with the stateful random-axis comparator, split at
    the midpoint, and recursed.  The source never reaches the empty case
    (construction starts from a non-empty scene and both halves of a
    split are non-empty). -/
def innerList (shut : ℝ × ℝ) : List Prim → Rng → HTree × Rng
  | [], r => (.dummy, r)
  | [p], r => (.node (p.box shut) .dummy (.prim p), r)
  | [a, b], r =>
    (.node (AABB.surrounding (b.box shut) (a.box shut)) (.prim b) (.prim a), r)
  | a :: b :: c :: t, r =>
    ((HTree.node
        ((rootBox shut (innerList shut ((sortRng shut r (a :: b :: c :: t)).1.take ((a :: b :: c :: t).length / 2)) (sortRng shut r (a :: b :: c :: t)).2).1).surrounding
          (rootBox shut (innerList shut ((sortRng shut r (a :: b :: c :: t)).1.drop ((a :: b :: c :: t).length / 2)) (innerList shut ((sortRng shut r (a :: b :: c :: t)).1.take ((a :: b :: c :: t).length / 2)) (sortRng shut r (a :: b :: c :: t)).2).2).1))
        (innerList shut ((sortRng shut r (a :: b :: c :: t)).1.take ((a :: b :: c :: t).length / 2)) (sortRng shut r (a :: b :: c :: t)).2).1
        (innerList shut ((sortRng shut r (a :: b :: c :: t)).1.drop ((a :: b :: c :: t).length / 2)) (innerList shut ((sortRng shut r (a :: b :: c :: t)).1.take ((a :: b :: c :: t).length / 2)) (sortRng shut r (a :: b :: c :: t)).2).2).1),
      (innerList shut ((sortRng shut r (a :: b :: c :: t)).1.drop ((a :: b :: c :: t).length / 2)) (innerList shut ((sortRng shut r (a :: b :: c :: t)).1.take ((a :: b :: c :: t).length / 2)) (sortRng shut r (a :: b :: c :: t)).2).2).2)
termination_by l _ => l.length
decreasing_by
  all_goals simp [List.length_take, List.length_drop, sortRng_length]
  all_goals omega

theorem built_innerList (shut : ℝ × ℝ) :
    ∀ (n : ℕ) (l : List Prim), l.length ≤ n → l ≠ [] → ∀ (r : Rng),
      Built shut l (innerList shut l r).1 := by
  intro n
  induction n with
  | zero =>
    intro l hl hne
    cases l with
    | nil => exact absurd rfl hne
    | cons a t => simp at hl
  | succ n ih =>
    intro l hl hne r
    match l with
    | [p] =>
      simp only [innerList]
      exact Built.single p
    | [a, b] =>
      simp only [innerList]
      exact Built.pair a b
    | a :: b :: c :: t =>
      simp only [innerList]
      have hperm := sortRng_perm shut (a :: b :: c :: t) r
      have hlen := sortRng_length shut (a :: b :: c :: t) r
      have hlen3 : 3 ≤ (a :: b :: c :: t).length := by simp
      have htake : ((sortRng shut r (a :: b :: c :: t)).1.take
          ((a :: b :: c :: t).length / 2)).length =
          (a :: b :: c :: t).length / 2 := by
        rw [List.length_take, hlen]
        simp only [List.length_cons]
        omega
      have hdrop : ((sortRng shut r (a :: b :: c :: t)).1.drop
          ((a :: b :: c :: t).length / 2)).length =
          (a :: b :: c :: t).length - (a :: b :: c :: t).length / 2 := by
        rw [List.length_drop, hlen]
      refine Built.split _ (sortRng shut r (a :: b :: c :: t)).1 _ _ hlen3 hperm
        (ih _ ?_ ?_ _) (ih _ ?_ ?_ _)
      · rw [htake]
        simp only [List.length_cons] at hl ⊢
        omega
      · refine List.ne_nil_of_length_pos ?_
        rw [htake]
        simp only [List.length_cons]
        omega
      · rw [hdrop]
        simp only [List.length_cons] at hl ⊢
        omega
      · refine List.ne_nil_of_length_pos ?_
        rw [hdrop]
        simp only [List.length_cons]
        omega

/-- C2, counterexample: the sort comparator of `BVH::inner_list` draws
    a fresh random axis inside the closure, on every comparison.  With a
    generator whose first draw selects axis X and whose second selects
    axis Y, two consecutive comparisons of the same two boxes return
    `lt` and then `gt`; hence no single fixed axis reproduces the
    comparator, contradicting "the same axis for every comparison of
    that sort". -/
theorem C2_counterexample :
    (bvhSortCmp ⟨fun n => if n = 0 then 0 else 1 / 2, 0⟩
      ⟨⟨0, 1, 0⟩, ⟨2, 2, 2⟩⟩ ⟨⟨1, 0, 0⟩, ⟨2, 2, 2⟩⟩).1 = .lt ∧
    (bvhSortCmp (bvhSortCmp ⟨fun n => if n = 0 then 0 else 1 / 2, 0⟩
        ⟨⟨0, 1, 0⟩, ⟨2, 2, 2⟩⟩ ⟨⟨1, 0, 0⟩, ⟨2, 2, 2⟩⟩).2
      ⟨⟨0, 1, 0⟩, ⟨2, 2, 2⟩⟩ ⟨⟨1, 0, 0⟩, ⟨2, 2, 2⟩⟩).1 = .gt ∧
    ¬ ∃ ax : Axis, ∀ r : Rng,
      (bvhSortCmp r ⟨⟨0, 1, 0⟩, ⟨2, 2, 2⟩⟩ ⟨⟨1, 0, 0⟩, ⟨2, 2, 2⟩⟩).1 =
        AABB.compareAxis ⟨⟨0, 1, 0⟩, ⟨2, 2, 2⟩⟩ ⟨⟨1, 0, 0⟩, ⟨2, 2, 2⟩⟩ ax := by
  have h1 : (bvhSortCmp ⟨fun n => if n = 0 then 0 else 1 / 2, 0⟩
      ⟨⟨0, 1, 0⟩, ⟨2, 2, 2⟩⟩ ⟨⟨1, 0, 0⟩, ⟨2, 2, 2⟩⟩).1 = .lt := by
    norm_num [bvhSortCmp, drawAxis, Rng.next, AABB.compareAxis, cmpReal, Vec3.get]
  have h2 : (bvhSortCmp (bvhSortCmp ⟨fun n => if n = 0 then 0 else 1 / 2, 0⟩
        ⟨⟨0, 1, 0⟩, ⟨2, 2, 2⟩⟩ ⟨⟨1, 0, 0⟩, ⟨2, 2, 2⟩⟩).2
      ⟨⟨0, 1, 0⟩, ⟨2, 2, 2⟩⟩ ⟨⟨1, 0, 0⟩, ⟨2, 2, 2⟩⟩).1 = .gt := by
    norm_num [bvhSortCmp, drawAxis, Rng.next, AABB.compareAxis, cmpReal, Vec3.get]
  refine ⟨h1, h2, ?_⟩
  rintro ⟨ax, hax⟩
  have ha := hax ⟨fun n => if n = 0 then 0 else 1 / 2, 0⟩
  have hb := hax (bvhSortCmp ⟨fun n => if n = 0 then 0 else 1 / 2, 0⟩
      ⟨⟨0, 1, 0⟩, ⟨2, 2, 2⟩⟩ ⟨⟨1, 0, 0⟩, ⟨2, 2, 2⟩⟩).2
  rw [h1] at ha
  rw [h2] at hb
  rw [← ha] at hb
  exact Ordering.noConfusion hb

/-- C2, amended: when BVH construction recurses on more than two
    children it sorts them with a STATEFUL comparator — every single
    comparison draws a fresh uniformly random axis and compares the two
    boxes' minimum coordinates along that per-comparison axis — then
    splits the sorted list, a permutation of its input, at the midpoint
    `len / 2` and recurses on each half (the shape captured by
    `Built`). -/
theorem C2_random_axis_per_comparison :
    (∀ (r : Rng) (a b : AABB),
      bvhSortCmp r a b = (a.compareAxis b (drawAxis r).1, (drawAxis r).2)) ∧
    (∀ (shut : ℝ × ℝ) (l : List Prim) (r : Rng), ((sortRng shut r l).1).Perm l) ∧
    (∀ (shut : ℝ × ℝ) (l : List Prim) (r : Rng), l ≠ [] →
      Built shut l (innerList shut l r).1) := by
  refine ⟨fun r a b => rfl, sortRng_perm, ?_⟩
  intro shut l r hne
  exact built_innerList shut l.length l (le_refl _) hne r

theorem C2_random_axis_per_comparison_witness :
    bvhSortCmp ⟨fun _ => 0, 0⟩ ⟨⟨0, 1, 0⟩, ⟨2, 2, 2⟩⟩ ⟨⟨1, 0, 0⟩, ⟨2, 2, 2⟩⟩ =
      (AABB.compareAxis ⟨⟨0, 1, 0⟩, ⟨2, 2, 2⟩⟩ ⟨⟨1, 0, 0⟩, ⟨2, 2, 2⟩⟩
        (drawAxis ⟨fun _ => 0, 0⟩).1, (drawAxis ⟨fun _ => 0, 0⟩).2) ∧
    Built (0, 1) [Prim.sphere (Sphere.mk ⟨0, 0, 0⟩ 1 .dbgBlack)]
      (innerList (0, 1) [Prim.sphere (Sphere.mk ⟨0, 0, 0⟩ 1 .dbgBlack)] ⟨fun _ => 0, 0⟩).1 :=
  ⟨C2_random_axis_per_comparison.1 ⟨fun _ => 0, 0⟩ _ _,
    C2_random_axis_per_comparison.2.2 (0, 1) [Prim.sphere (Sphere.mk ⟨0, 0, 0⟩ 1 .dbgBlack)]
      ⟨fun _ => 0, 0⟩ (by simp)⟩

/-- Componentwise extensionality for `Vec3`. -/
theorem Vec3.ext3 {a b : Vec3} (hx : a.x = b.x) (hy : a.y = b.y) (hz : a.z = b.z) :
    a = b := by
  cases a
  cases b
  simp_all

/-- `Hit::ray` on a front-face strike keeps the outward normal. -/
theorem Hit.ray_of_neg {p n : Vec3} {t : ℝ} {ray : Ray} {m : Material}
    (h : ray.dir.dot n < 0) : Hit.ray p n t ray m = ⟨p, n, t, true, m⟩ :=
  if_pos h
/-- C4: Sphere/MovingSphere intersection.  (1) `Sphere::hit` is a
    correct closest-root query: it returns `none` exactly when no root
    of the half-`b` quadratic lies in the caller's interval (negative
    discriminants are rejected), and otherwise the smallest in-interval
    root — the smaller root when it lies inside, else the larger.
    (2) A negative discriminant yields no hit.  (3) `MovingSphere::hit`
    first resolves the interpolated center and then proceeds exactly as
    `Sphere::hit`.  (4) The ray from the origin toward (0,0,−1) against
    the sphere centered at (0,0,−1) with radius 0.5 hits at t = 0.5
    with outward unit normal (0,0,1), striking the front face. -/
theorem C4_sphere_intersection :
    (∀ (sp : Sphere) (ray : Ray) (st : ℝ) (en : EReal),
      MinSpec (sp.isRoot ray) st en (sp.hit ray st en)) ∧
    (∀ (sp : Sphere) (ray : Ray) (st : ℝ) (en : EReal),
      ((ray.origin - sp.center).dot ray.dir) ^ 2 -
        ray.dir.normSq * ((ray.origin - sp.center).normSq - sp.radius ^ 2) < 0 →
      sp.hit ray st en = none) ∧
    (∀ (m : MovingSphere) (ray : Ray) (st : ℝ) (en : EReal),
      m.hit ray st en =
        (Sphere.mk (m.center ray.time) m.radius m.material).hit ray st en) ∧
    (∃ h, (Sphere.mk ⟨0, 0, -1⟩ (1/2) .dbgBlack).hit
        ⟨⟨0, 0, 0⟩, ⟨0, 0, -1⟩, 0⟩ 0 ((1 : ℝ) : EReal) = some h ∧
      h.time = 1/2 ∧ h.normal = ⟨0, 0, 1⟩ ∧ h.frontFace = true) := by
  refine ⟨Sphere.hit_minspec, ?_, ?_, ?_⟩
  · intro sp ray st en hneg
    by_cases h1 : ray.dir.normSq = 0
    · simp [Sphere.hit, h1]
    · simp only [Sphere.hit]
      rw [if_neg h1, if_neg (not_le.mpr hneg)]
  · intro m ray st en
    rfl
  · have h4 : Real.sqrt 4 = 2 := by
      rw [show (4 : ℝ) = 2 ^ 2 by norm_num]
      exact Real.sqrt_sq (by norm_num)
    simp only [Sphere.hit, Vec3.normSq, Vec3.dot, Vec3.sub_x, Vec3.sub_y, Vec3.sub_z]
    norm_num [h4, EReal.coe_lt_coe_iff]
    have hc1 : ((1/2 : ℝ) : EReal) < (1 : EReal) := by
      rw [← EReal.coe_one]
      exact EReal.coe_lt_coe_iff.mpr (by norm_num)
    rw [if_pos hc1]
    have hneg : (Ray.mk ⟨0, 0, 0⟩ ⟨0, 0, -1⟩ 0).dir.dot
        ((Ray.at ⟨⟨0, 0, 0⟩, ⟨0, 0, -1⟩, 0⟩ ((1 : ℝ) / 2) - ⟨0, 0, -1⟩) / ((1 : ℝ) / 2)) < 0 := by
      simp [Vec3.dot, Ray.at]
      norm_num
    refine ⟨_, rfl, by simp, ?_, ?_⟩
    · rw [Hit.ray_of_neg hneg]
      apply Vec3.ext3 <;> simp [Ray.at] <;> norm_num
    · rw [Hit.ray_of_neg hneg]

/-- Counterexample to C5 as stated: `Vec3::reflect` first normalizes
    its argument, so for the non-unit vector v = (0,0,−2) and normal
    n = (0,0,1) it returns (0,0,1), while the claimed formula
    `v − 2(v·n)n` gives (0,0,2). -/
theorem C5_counterexample :
    Vec3.reflect ⟨0, 0, -2⟩ ⟨0, 0, 1⟩ = ⟨0, 0, 1⟩ ∧
    ((⟨0, 0, -2⟩ : Vec3) - (2 * Vec3.dot ⟨0, 0, -2⟩ ⟨0, 0, 1⟩) • ⟨0, 0, 1⟩) = ⟨0, 0, 2⟩ ∧
    Vec3.reflect ⟨0, 0, -2⟩ ⟨0, 0, 1⟩ ≠
      (⟨0, 0, -2⟩ : Vec3) - (2 * Vec3.dot ⟨0, 0, -2⟩ ⟨0, 0, 1⟩) • ⟨0, 0, 1⟩ := by
  have h4 : Real.sqrt 4 = 2 := by
    rw [show (4 : ℝ) = 2 ^ 2 by norm_num]
    exact Real.sqrt_sq (by norm_num)
  have h1 : Vec3.reflect ⟨0, 0, -2⟩ ⟨0, 0, 1⟩ = ⟨0, 0, 1⟩ := by
    simp only [Vec3.reflect, Vec3.normalized, Vec3.norm, Vec3.normSq, Vec3.dot]
    norm_num [h4]
    apply Vec3.ext3 <;> simp <;> norm_num
  have h2 : ((⟨0, 0, -2⟩ : Vec3) - (2 * Vec3.dot ⟨0, 0, -2⟩ ⟨0, 0, 1⟩) • ⟨0, 0, 1⟩) =
      ⟨0, 0, 2⟩ := by
    simp only [Vec3.dot]
    apply Vec3.ext3 <;> simp <;> norm_num
  refine ⟨h1, h2, ?_⟩
  rw [h1, h2]
  intro h
  have := congrArg Vec3.z h
  simp at this

/-- C5 (amended): `Vec3::reflect` normalizes the incident vector first:
    it returns `u − 2(u·n)n` for `u = v/‖v‖`; for unit-length `v` this
    is exactly the claimed `v − 2(v·n)n`.  `Metal::scatter` with
    fuzz = 0 is deterministic: for every hit and every random draw the
    scattered direction is exactly `Vec3::reflect` of the incident
    direction about the hit normal (the below-surface correction
    subtracts twice a zero vector). -/
theorem C5_reflect_amended :
    (∀ v n : Vec3, v.reflect n =
      Vec3.normalized v - (2 * (Vec3.normalized v).dot n) • n) ∧
    (∀ v n : Vec3, v.norm = 1 → v.reflect n = v - (2 * v.dot n) • n) ∧
    (∀ (albedo : Color) (ray : Ray) (hit : Hit) (rng : Rng),
      ∃ sc rng₂, Material.scatter (.metal albedo 0) ray hit rng = (some sc, rng₂) ∧
        sc.ray.dir = ray.dir.reflect hit.normal) := by
  refine ⟨fun v n => rfl, ?_, ?_⟩
  · intro v n h
    have : Vec3.normalized v = v := by
      apply Vec3.ext3 <;> simp [Vec3.normalized, h]
    rw [show v.reflect n = Vec3.normalized v - (2 * (Vec3.normalized v).dot n) • n from rfl,
      this]
  · intro albedo ray hit rng
    refine ⟨_, _, rfl, ?_⟩
    show (if ((ray.dir.reflect hit.normal + (0:ℝ) • (sphereSample rng).1).dot hit.normal ≤ 0)
        then ray.dir.reflect hit.normal + (0:ℝ) • (sphereSample rng).1 -
          (2:ℝ) • ((0:ℝ) • (sphereSample rng).1)
        else ray.dir.reflect hit.normal + (0:ℝ) • (sphereSample rng).1) =
      ray.dir.reflect hit.normal
    split_ifs <;> apply Vec3.ext3 <;> simp

/-- Witness for C5: the unit vector (0,0,−1) satisfies the unit-norm
    hypothesis, and its reflection about (0,0,1) matches the claimed
    formula. -/
theorem C5_reflect_amended_witness :
    Vec3.norm ⟨0, 0, -1⟩ = 1 ∧
    Vec3.reflect ⟨0, 0, -1⟩ ⟨0, 0, 1⟩ =
      (⟨0, 0, -1⟩ : Vec3) - (2 * Vec3.dot ⟨0, 0, -1⟩ ⟨0, 0, 1⟩) • ⟨0, 0, 1⟩ := by
  have hn : Vec3.norm ⟨0, 0, -1⟩ = 1 := by
    simp [Vec3.norm, Vec3.normSq]
  exact ⟨hn, C5_reflect_amended.2.1 _ _ hn⟩

/-- C9: every material of the program — Lambertian, Metal, Dielectric,
    and the debug black material — returns `Some` scattered ray for
    every incident ray, hit record, and RNG state; no material ever
    absorbs by returning `None`. -/
theorem C9_scatter_always_some :
    ∀ (m : Material) (ray : Ray) (hit : Hit) (rng : Rng),
      (Material.scatter m ray hit rng).1.isSome = true := by
  intro m ray hit rng
  cases m with
  | lambertian tex => rfl
  | metal albedo fuzz => rfl
  | dielectric ri =>
    simp only [Material.scatter]
    split_ifs <;> rfl
  | dbgBlack => rfl

/-- Mirrors `screen.rs`'s `Camera` (fields used by `get_ray`). -/
structure Camera where
  origin : Vec3
  horiz : Vec3
  vert : Vec3
  lowerLeft : Vec3
  lensRadius : ℝ
  shutterTime : Option (ℝ × ℝ)
  u : Vec3
  v : Vec3
  w : Vec3

/-- Mirrors `Camera::get_ray`: jitter the origin within the lens disk
    only when the lens radius is nonzero, draw the ray time from the
    shutter interval only when one is configured (else 0), and aim at
    the bilinear viewport point. -/
def Camera.getRay (cam : Camera) (i j : ℝ) (rng : Rng) : Ray × Rng :=
  let (origin, rng₁) :=
    if cam.lensRadius = 0 then (cam.origin, rng)
    else
      let (rd, rng') := diskSample rng
      let randDisk := cam.lensRadius • rd
      (cam.origin + randDisk.x • cam.u + randDisk.y • cam.v, rng')
  let (time, rng₂) :=
    match cam.shutterTime with
    | none => ((0 : ℝ), rng₁)
    | some (a, b) => rng₁.nextRange a b
  (⟨origin, cam.lowerLeft + i • cam.horiz + j • cam.vert - origin, time⟩, rng₂)

/-- Mirrors the sky-gradient computation at the end of `ray_color`
    (`main.rs` lines 143-148). -/
def skyColor (ray : Ray) : Color :=
  let unitDir := Vec3.normalized ray.dir
  let t := 0.5 * (unitDir.y + 1)
  (1 - t) • (Color.mk 1 1 1) + t • (Color.mk 0.5 0.7 1)

/-- Mirrors the iterative bounce loop of `ray_color` (`main.rs` lines
    120-149) with the remaining bounce budget as fuel: on a hit, ask
    the material to scatter; multiply the accumulated color by the
    albedo; zero the color when the budget is exhausted or the ray is
    absorbed; multiply by the sky gradient of the final ray on exit.
    (The source's `bounces` starts at `max_ray_depth`, a `NonZeroU32`,
    so the fuel-0 case is never reached from `rayColor`.) -/
def rayColorAux (world : List HTree) : ℕ → Ray → Color → Rng → Color × Rng
  | 0, ray, color, rng => (skyColor ray * color, rng)
  | (b + 1), ray, color, rng =>
    match hitObjs world ray (1 / 1000) ⊤ with
    | none => (skyColor ray * color, rng)
    | some h =>
      match h.material.scatter ray h rng with
      | (some sc, rng') =>
        if b = 0 then (skyColor sc.ray * ((0 : ℝ) • (color * sc.albedo)), rng')
        else rayColorAux world b sc.ray (color * sc.albedo) rng'
      | (none, rng') => (skyColor ray * ((0 : ℝ) • color), rng')

/-- Mirrors `ray_color`: the loop starts with neutral white and the
    full bounce budget. -/
def rayColor (world : List HTree) (ray : Ray) (rng : Rng) (maxDepth : ℕ) : Color × Rng :=
  rayColorAux world maxDepth ray Color.one rng

/-- The externally parsed configuration consumed by the render loop. -/
structure RenderCfg where
  width : ℕ
  height : ℕ
  samples : ℕ
  maxDepth : ℕ
  antialias : Bool

/-- Mirrors one sample of the pixel loop of `main.rs` (lines 84-95):
    optional antialias jitter (two draws), normalized screen
    coordinates, a camera ray, and one path trace. -/
def renderSample (world : List HTree) (cam : Camera) (cfg : RenderCfg) (x y : ℕ)
    (rng : Rng) : Color × Rng :=
  let (ri, rj, rng₁) :=
    if ¬cfg.antialias then ((0 : ℝ), (0 : ℝ), rng)
    else
      let (a, r1) := rng.next
      let (b, r2) := r1.next
      (a, b, r2)
  let i := ((x : ℝ) + ri) / ((cfg.width : ℝ) - 1)
  let j := 1 - (((y : ℝ) + rj) / ((cfg.height : ℝ) - 1))
  let (ray, rng₂) := cam.getRay i j rng₁
  rayColor world ray rng₂ cfg.maxDepth

/-- Mirrors the per-pixel sample average of `main.rs` (lines 83-98). -/
def renderPixel (world : List HTree) (cam : Camera) (cfg : RenderCfg) (x y : ℕ)
    (rng : Rng) : Color × Rng :=
  let p := (List.range cfg.samples).foldl
    (fun (p : Color × Rng) _ =>
      let (sample, r2) := renderSample world cam cfg x y p.2
      (p.1 + sample, r2)) (Color.zero, rng)
  (p.1 / (cfg.samples : ℝ), p.2)

/-- Mirrors the per-row seeding of `main.rs` (line 80):
    `seed.wrapping_add(1).wrapping_mul(y as u64)` in 64-bit wrapping
    arithmetic. -/
def rowSeed (seed y : ℕ) : ℕ := (seed + 1) % 2 ^ 64 * y % 2 ^ 64

/-- Mirrors one row of the parallel loop of `main.rs` (lines 76-100):
    seed a fresh generator from the row seed, then walk the pixels left
    to right, threading the generator.  `tapeOf` is the seed-to-stream
    function of the `SmallRng` model. -/
def renderRow (tapeOf : ℕ → ℕ → ℝ) (world : List HTree) (cam : Camera)
    (cfg : RenderCfg) (runSeed y : ℕ) : List Color :=
  let rng0 : Rng := ⟨tapeOf (rowSeed runSeed y), 0⟩
  ((List.range cfg.width).foldl
    (fun (p : List Color × Rng) x =>
      let (pix, r2) := renderPixel world cam cfg x y p.2
      (p.1 ++ [pix], r2)) ([], rng0)).1

/-- The render output in row order: row `y` of the buffer is exactly
    `renderRow` at `y`. -/
def renderSeq (tapeOf : ℕ → ℕ → ℝ) (world : List HTree) (cam : Camera)
    (cfg : RenderCfg) (runSeed : ℕ) : List (List Color) :=
  (List.range cfg.height).map (renderRow tapeOf world cam cfg runSeed)

/-- The render output when the rows are completed in an arbitrary
    order (`order` lists the rows in completion order, modelling any
    interleaving of the worker pool): each completed row is written
    into its own slot of the buffer. -/
def renderSched (tapeOf : ℕ → ℕ → ℝ) (world : List HTree) (cam : Camera)
    (cfg : RenderCfg) (runSeed : ℕ) (order : List ℕ) : List (List Color) :=
  order.foldl (fun buf y => buf.set y (renderRow tapeOf world cam cfg runSeed y))
    (List.replicate cfg.height [])

theorem foldl_set_length {α : Type} (f : ℕ → α) :
    ∀ (order : List ℕ) (buf : List α),
      (order.foldl (fun b y => b.set y (f y)) buf).length = buf.length := by
  intro order
  induction order with
  | nil => intro buf; rfl
  | cons y rest ih =>
    intro buf
    simp only [List.foldl_cons]
    rw [ih]
    exact List.length_set _ _ _

theorem foldl_set_get_not_mem {α : Type} (f : ℕ → α) :
    ∀ (order : List ℕ) (buf : List α) (i : ℕ), i ∉ order →
      (order.foldl (fun b y => b.set y (f y)) buf)[i]? = buf[i]? := by
  intro order
  induction order with
  | nil => intro buf i _; rfl
  | cons y rest ih =>
    intro buf i hmem
    simp only [List.mem_cons, not_or] at hmem
    simp only [List.foldl_cons]
    rw [ih _ _ hmem.2, List.getElem?_set_ne (Ne.symm hmem.1)]

theorem foldl_set_get_mem {α : Type} (f : ℕ → α) :
    ∀ (order : List ℕ) (buf : List α) (i : ℕ), i ∈ order → i < buf.length →
      (order.foldl (fun b y => b.set y (f y)) buf)[i]? = some (f i) := by
  intro order
  induction order with
  | nil => intro buf i h _; exact absurd h (List.not_mem_nil i)
  | cons y rest ih =>
    intro buf i hmem hlen
    simp only [List.foldl_cons]
    by_cases hrest : i ∈ rest
    · exact ih _ _ hrest (by rw [List.length_set]; exact hlen)
    · have hy : i = y := by
        rcases List.mem_cons.mp hmem with h | h
        · exact h
        · exact absurd h hrest
      subst hy
      rw [foldl_set_get_not_mem f rest _ _ hrest]
      exact List.getElem?_set_eq_of_lt _ hlen

/-- C7: render determinism under parallel scheduling.  For every RNG
    model, scene, camera, configuration, and run seed, and for any two
    orders in which the row workers complete the rows (any permutation
    of the rows — covering every possible parallel interleaving and
    worker count), the output buffers are identical, and both equal the
    row-indexed sequential render; each row's generator is seeded
    purely as `rowSeed runSeed y`, a function of the run seed and the
    row index alone. -/
theorem C7_render_parallel_deterministic
    (tapeOf : ℕ → ℕ → ℝ) (world : List HTree) (cam : Camera) (cfg : RenderCfg)
    (runSeed : ℕ) (o₁ o₂ : List ℕ)
    (h₁ : o₁.Perm (List.range cfg.height)) (h₂ : o₂.Perm (List.range cfg.height)) :
    renderSched tapeOf world cam cfg runSeed o₁ = renderSeq tapeOf world cam cfg runSeed ∧
    renderSched tapeOf world cam cfg runSeed o₁ =
      renderSched tapeOf world cam cfg runSeed o₂ := by
  have key : ∀ o : List ℕ, o.Perm (List.range cfg.height) →
      renderSched tapeOf world cam cfg runSeed o = renderSeq tapeOf world cam cfg runSeed := by
    intro o hperm
    apply List.ext_getElem?
    intro i
    by_cases hi : i < cfg.height
    · have hmem : i ∈ o := hperm.mem_iff.mpr (List.mem_range.mpr hi)
      rw [show renderSched tapeOf world cam cfg runSeed o =
        o.foldl (fun buf y => buf.set y (renderRow tapeOf world cam cfg runSeed y))
          (List.replicate cfg.height []) from rfl]
      rw [foldl_set_get_mem _ o _ i hmem (by rw [List.length_replicate]; exact hi)]
      rw [show renderSeq tapeOf world cam cfg runSeed =
        (List.range cfg.height).map (renderRow tapeOf world cam cfg runSeed) from rfl]
      rw [List.getElem?_map, List.getElem?_range hi]
      rfl
    · have hlen1 : (renderSched tapeOf world cam cfg runSeed o).length = cfg.height := by
        rw [show renderSched tapeOf world cam cfg runSeed o =
          o.foldl (fun buf y => buf.set y (renderRow tapeOf world cam cfg runSeed y))
            (List.replicate cfg.height []) from rfl]
        rw [foldl_set_length, List.length_replicate]
      have hlen2 : (renderSeq tapeOf world cam cfg runSeed).length = cfg.height := by
        rw [show renderSeq tapeOf world cam cfg runSeed =
          (List.range cfg.height).map (renderRow tapeOf world cam cfg runSeed) from rfl]
        rw [List.length_map, List.length_range]
      rw [List.getElem?_eq_none (by omega), List.getElem?_eq_none (by omega)]
  exact ⟨key o₁ h₁, (key o₁ h₁).trans (key o₂ h₂).symm⟩

/-- Witness for C7: a two-row configuration rendered with the rows
    completed in reversed order equals the sequential render. -/
theorem C7_render_parallel_deterministic_witness :
    ([1, 0] : List ℕ).Perm (List.range 2) ∧
    renderSched (fun _ _ => 0) [] (Camera.mk ⟨0,0,0⟩ ⟨1,0,0⟩ ⟨0,1,0⟩ ⟨0,0,-1⟩ 0 none
        ⟨1,0,0⟩ ⟨0,1,0⟩ ⟨0,0,1⟩) (RenderCfg.mk 1 2 1 1 false) 0 [1, 0] =
      renderSeq (fun _ _ => 0) [] (Camera.mk ⟨0,0,0⟩ ⟨1,0,0⟩ ⟨0,1,0⟩ ⟨0,0,-1⟩ 0 none
        ⟨1,0,0⟩ ⟨0,1,0⟩ ⟨0,0,1⟩) (RenderCfg.mk 1 2 1 1 false) 0 := by
  have hperm : ([1, 0] : List ℕ).Perm (List.range 2) := by decide
  exact ⟨hperm, (C7_render_parallel_deterministic _ _ _ _ _ _ _ hperm hperm).1⟩

/-- C10: the per-row seed is `(run_seed + 1) * row` in 64-bit wrapping
    arithmetic, so row 0 always derives seed 0: any two runs, whatever
    their run-level seeds, give row 0 the identical generator state and
    hence the identical pseudo-random sample stream and row output. -/
theorem C10_row_zero_seed :
    (∀ s y, rowSeed s y = (s + 1) % 2 ^ 64 * y % 2 ^ 64) ∧
    (∀ s, rowSeed s 0 = 0) ∧
    (∀ (tapeOf : ℕ → ℕ → ℝ) (s s' : ℕ),
      (Rng.mk (tapeOf (rowSeed s 0)) 0) = (Rng.mk (tapeOf (rowSeed s' 0)) 0)) ∧
    (∀ (tapeOf : ℕ → ℕ → ℝ) (world : List HTree) (cam : Camera) (cfg : RenderCfg)
      (s s' : ℕ),
      renderRow tapeOf world cam cfg s 0 = renderRow tapeOf world cam cfg s' 0) := by
  have hz : ∀ s, rowSeed s 0 = 0 := by
    intro s
    simp [rowSeed]
  refine ⟨fun s y => rfl, hz, ?_, ?_⟩
  · intro tapeOf s s'
    rw [hz, hz]
  · intro tapeOf world cam cfg s s'
    unfold renderRow
    rw [hz, hz]

/-- Mirrors `Vec3::checked_normalized`: explicit failure on a
    zero-length vector instead of the unchecked NaN path. -/
def Vec3.checkedNormalized (v : Vec3) : Option Vec3 :=
  if v.norm = 0 then none else some (v / v.norm)

theorem Vec3.normSq_eq_zero_iff (v : Vec3) : v.normSq = 0 ↔ v = ⟨0, 0, 0⟩ := by
  constructor
  · intro h
    have h' : v.x ^ 2 + v.y ^ 2 + v.z ^ 2 = 0 := by simpa [Vec3.normSq] using h
    have hx : v.x = 0 := by nlinarith [sq_nonneg v.x, sq_nonneg v.y, sq_nonneg v.z]
    have hy : v.y = 0 := by nlinarith [sq_nonneg v.x, sq_nonneg v.y, sq_nonneg v.z]
    have hz : v.z = 0 := by nlinarith [sq_nonneg v.x, sq_nonneg v.y, sq_nonneg v.z]
    exact Vec3.ext3 hx hy hz
  · intro h
    rw [h]
    simp [Vec3.normSq]

theorem Vec3.norm_eq_zero_iff (v : Vec3) : v.norm = 0 ↔ v = ⟨0, 0, 0⟩ := by
  rw [Vec3.norm, Real.sqrt_eq_zero (Vec3.normSq_nonneg v)]
  exact Vec3.normSq_eq_zero_iff v

theorem Vec3.normalized_eq_smul (v : Vec3) : Vec3.normalized v = (v.norm)⁻¹ • v := by
  apply Vec3.ext3 <;> simp [Vec3.normalized, div_eq_inv_mul]

theorem Vec3.cross_smul_left (c : ℝ) (a b : Vec3) :
    (c • a).cross b = c • a.cross b := by
  apply Vec3.ext3 <;> simp [Vec3.cross] <;> ring

theorem Vec3.cross_smul_right (c : ℝ) (a b : Vec3) :
    a.cross (c • b) = c • a.cross b := by
  apply Vec3.ext3 <;> simp [Vec3.cross] <;> ring

theorem Vec3.smul_eq_zero_iff (c : ℝ) (v : Vec3) :
    c • v = (⟨0, 0, 0⟩ : Vec3) ↔ c = 0 ∨ v = ⟨0, 0, 0⟩ := by
  constructor
  · intro h
    by_cases hc : c = 0
    · exact Or.inl hc
    · refine Or.inr (Vec3.ext3 ?_ ?_ ?_) <;>
        [have := congrArg Vec3.x h; have := congrArg Vec3.y h; have := congrArg Vec3.z h] <;>
        simp at this <;>
        simpa [hc] using this
  · intro h
    rcases h with h | h
    · rw [h]; apply Vec3.ext3 <;> simp
    · rw [h]; apply Vec3.ext3 <;> simp

/-- Mirrors `screen.rs`'s `CameraBuilder` fields. -/
structure CameraBuilder where
  origin : Option Vec3
  lookAt : Option Vec3
  viewUp : Vec3
  vfovDegrees : ℝ
  aspect : ℝ
  aperture : ℝ
  focusDist : Option ℝ
  shutterTime : Option (ℝ × ℝ)

/-- The verification failures of `CameraBuilder::verify`, one per
    offending configuration item (the source attaches the attempted
    configuration as context to each). -/
inductive CamErr where
  | noOrigin
  | noLookAt
  | zeroViewUp
  | originEqLookAt
  | viewUpParallel
  | negativeAperture
  | nonPositiveVfov
  | nonPositiveAspect
  | nonPositiveFocusDist

/-- Mirrors `CameraBuilder::verify`, check for check in source order:
    origin and look_at provided, view_up normalizable (nonzero),
    origin ≠ look_at, view_up not parallel to the view direction,
    aperture ≥ 0, vfov > 0, aspect ratio > 0, focus distance (when
    given) > 0. -/
def CameraBuilder.verify (b : CameraBuilder) : Except CamErr Unit :=
  match b.origin with
  | none => .error .noOrigin
  | some origin =>
    match b.lookAt with
    | none => .error .noLookAt
    | some lookAt =>
      match Vec3.checkedNormalized b.viewUp with
      | none => .error .zeroViewUp
      | some viewUp =>
        match Vec3.checkedNormalized (origin - lookAt) with
        | none => .error .originEqLookAt
        | some w =>
          match Vec3.checkedNormalized (viewUp.cross w) with
          | none => .error .viewUpParallel
          | some _ =>
            if b.aperture < 0 then .error .negativeAperture
            else if b.vfovDegrees ≤ 0 then .error .nonPositiveVfov
            else if b.aspect ≤ 0 then .error .nonPositiveAspect
            else
              match b.focusDist with
              | some d => if d ≤ 0 then .error .nonPositiveFocusDist else .ok ()
              | none => .ok ()

/-- Mirrors `CameraBuilder::build`: verify, then derive the camera
    basis, viewport and lens.  (The `.error .noOrigin` fallback arm is
    unreachable: `verify` has already required both points.) -/
def CameraBuilder.build (b : CameraBuilder) : Except CamErr Camera :=
  match b.verify with
  | .error e => .error e
  | .ok _ =>
    match b.origin, b.lookAt with
    | some origin, some lookAt =>
      let lensRadius := b.aperture / 2
      let focusDist := b.focusDist.getD (origin - lookAt).norm
      let theta := b.vfovDegrees * Real.pi / 180 / 2
      let halfHeight := focusDist * Real.tan theta
      let halfWidth := b.aspect * halfHeight
      let viewUp := Vec3.normalized b.viewUp
      let w := Vec3.normalized (origin - lookAt)
      let u := Vec3.normalized (viewUp.cross w)
      let v := w.cross u
      let lowerLeft := origin - halfWidth • u - halfHeight • v - focusDist • w
      .ok ⟨origin, (2 * halfWidth) • u, (2 * halfHeight) • v, lowerLeft,
        lensRadius, b.shutterTime, u, v, w⟩
    | _, _ => .error .noOrigin

/-- C6: `CameraBuilder::build` returns `Ok` exactly when the origin and
    look-at points are provided and distinct, the view-up vector is
    nonzero and not parallel to the view direction, the vertical field
    of view and aspect ratio are strictly positive, the aperture is
    nonnegative, and the focus distance, when given, is strictly
    positive; in every other case it returns an error (no camera is
    constructed). -/
theorem C6_camera_builder_validation (b : CameraBuilder) :
    (∃ cam, b.build = .ok cam) ↔
      (b.origin.isSome ∧ b.lookAt.isSome ∧
       b.viewUp ≠ ⟨0, 0, 0⟩ ∧
       (∀ o la, b.origin = some o → b.lookAt = some la → o ≠ la) ∧
       (∀ o la, b.origin = some o → b.lookAt = some la →
         b.viewUp.cross (o - la) ≠ ⟨0, 0, 0⟩) ∧
       0 < b.vfovDegrees ∧ 0 < b.aspect ∧ 0 ≤ b.aperture ∧
       (∀ d, b.focusDist = some d → 0 < d)) := by
  have hbuild : (∃ cam, b.build = .ok cam) ↔ b.verify = .ok () := by
    constructor
    · rintro ⟨cam, hcam⟩
      unfold CameraBuilder.build at hcam
      cases hv : b.verify with
      | error e => rw [hv] at hcam; exact Except.noConfusion hcam
      | ok u => cases u; rfl
    · intro hv
      unfold CameraBuilder.build
      rw [hv]
      cases ho : b.origin with
      | none =>
        exfalso
        unfold CameraBuilder.verify at hv
        rw [ho] at hv
        exact Except.noConfusion hv
      | some origin =>
        cases hl : b.lookAt with
        | none =>
          exfalso
          unfold CameraBuilder.verify at hv
          rw [ho, hl] at hv
          exact Except.noConfusion hv
        | some lookAt => exact ⟨_, rfl⟩
  rw [hbuild]
  unfold CameraBuilder.verify
  cases ho : b.origin with
  | none =>
    simp only [Option.isSome_none, Bool.false_eq_true, false_and, iff_false]
    intro h
    exact Except.noConfusion h
  | some origin =>
    cases hl : b.lookAt with
    | none =>
      simp only [Option.isSome_none, Bool.false_eq_true, false_and, and_false, iff_false]
      intro h
      exact Except.noConfusion h
    | some lookAt =>
      simp only [Option.isSome_some, true_and]
      by_cases hvu : b.viewUp = ⟨0, 0, 0⟩
      · have : Vec3.checkedNormalized b.viewUp = none := by
          simp [Vec3.checkedNormalized, (Vec3.norm_eq_zero_iff _).mpr hvu]
        rw [this]
        simp only [hvu, ne_eq, not_true_eq_false, false_and, iff_false]
        intro h
        exact Except.noConfusion h
      · have hnvu : b.viewUp.norm ≠ 0 := fun h => hvu ((Vec3.norm_eq_zero_iff _).mp h)
        have : Vec3.checkedNormalized b.viewUp = some (b.viewUp / b.viewUp.norm) := by
          simp [Vec3.checkedNormalized, hnvu]
        rw [this]
        dsimp only
        simp only [ne_eq, hvu, not_false_eq_true, true_and]
        by_cases heq : origin = lookAt
        · have hz : origin - lookAt = (⟨0, 0, 0⟩ : Vec3) := by
            rw [heq]; apply Vec3.ext3 <;> simp
          have : Vec3.checkedNormalized (origin - lookAt) = none := by
            simp [Vec3.checkedNormalized, (Vec3.norm_eq_zero_iff _).mpr hz]
          rw [this]
          constructor
          · intro h; exact absurd h (by intro h; exact Except.noConfusion h)
          · rintro ⟨hdist, -⟩
            exact absurd heq (hdist origin lookAt rfl rfl)
        · have hzne : origin - lookAt ≠ (⟨0, 0, 0⟩ : Vec3) := by
            intro h
            apply heq
            apply Vec3.ext3 <;>
              [have := congrArg Vec3.x h; have := congrArg Vec3.y h;
                have := congrArg Vec3.z h] <;>
              simp at this <;> linarith
          have hnw : (origin - lookAt).norm ≠ 0 :=
            fun h => hzne ((Vec3.norm_eq_zero_iff _).mp h)
          have : Vec3.checkedNormalized (origin - lookAt) =
              some ((origin - lookAt) / (origin - lookAt).norm) := by
            simp [Vec3.checkedNormalized, hnw]
          rw [this]
          dsimp only
          have hcrosskey : (b.viewUp / b.viewUp.norm).cross
              ((origin - lookAt) / (origin - lookAt).norm) =
              ((b.viewUp.norm)⁻¹ * ((origin - lookAt).norm)⁻¹) •
                b.viewUp.cross (origin - lookAt) := by
            rw [show b.viewUp / b.viewUp.norm = (b.viewUp.norm)⁻¹ • b.viewUp from by
              apply Vec3.ext3 <;> simp [div_eq_inv_mul]]
            rw [show (origin - lookAt) / (origin - lookAt).norm =
              ((origin - lookAt).norm)⁻¹ • (origin - lookAt) from by
              apply Vec3.ext3 <;> simp [div_eq_inv_mul]]
            rw [Vec3.cross_smul_left, Vec3.cross_smul_right]
            apply Vec3.ext3 <;> simp <;> ring
          by_cases hpar : b.viewUp.cross (origin - lookAt) = ⟨0, 0, 0⟩
          · have hc0 : (b.viewUp / b.viewUp.norm).cross
                ((origin - lookAt) / (origin - lookAt).norm) = ⟨0, 0, 0⟩ := by
              rw [hcrosskey, hpar]
              apply Vec3.ext3 <;> simp
            have : Vec3.checkedNormalized ((b.viewUp / b.viewUp.norm).cross
                ((origin - lookAt) / (origin - lookAt).norm)) = none := by
              simp [Vec3.checkedNormalized, (Vec3.norm_eq_zero_iff _).mpr hc0]
            rw [this]
            dsimp only
            constructor
            · intro h; exact absurd h (by intro h; exact Except.noConfusion h)
            · rintro ⟨-, hcr, -⟩
              exact absurd hpar (hcr origin lookAt rfl rfl)
          · have hcne : (b.viewUp / b.viewUp.norm).cross
                ((origin - lookAt) / (origin - lookAt).norm) ≠ ⟨0, 0, 0⟩ := by
              rw [hcrosskey]
              intro h
              rcases (Vec3.smul_eq_zero_iff _ _).mp h with h | h
              · rcases mul_eq_zero.mp h with h | h
                · exact hnvu (by simpa using inv_eq_zero.mp h)
                · exact hnw (by simpa using inv_eq_zero.mp h)
              · exact hpar h
            have hncr : ((b.viewUp / b.viewUp.norm).cross
                ((origin - lookAt) / (origin - lookAt).norm)).norm ≠ 0 :=
              fun h => hcne ((Vec3.norm_eq_zero_iff _).mp h)
            have : Vec3.checkedNormalized ((b.viewUp / b.viewUp.norm).cross
                ((origin - lookAt) / (origin - lookAt).norm)) =
                some (((b.viewUp / b.viewUp.norm).cross
                  ((origin - lookAt) / (origin - lookAt).norm)) /
                  ((b.viewUp / b.viewUp.norm).cross
                    ((origin - lookAt) / (origin - lookAt).norm)).norm) := by
              simp [Vec3.checkedNormalized, hncr]
            rw [this]
            dsimp only
            have hdist : ∀ o la : Vec3, some origin = some o → some lookAt = some la →
                o ≠ la := by
              rintro o la h1 h2
              cases h1; cases h2
              exact heq
            have hcr : ∀ o la : Vec3, some origin = some o → some lookAt = some la →
                b.viewUp.cross (o - la) ≠ ⟨0, 0, 0⟩ := by
              rintro o la h1 h2
              cases h1; cases h2
              exact hpar
            split_ifs with h1 h2 h3
            · constructor
              · intro h
                exact h.elim
              · rintro ⟨-, -, -, -, hap, -⟩
                exact absurd h1 (not_lt.mpr hap)
            · constructor
              · intro h
                exact h.elim
              · rintro ⟨-, -, hv, -⟩
                exact absurd h2 (not_le.mpr hv)
            · constructor
              · intro h
                exact h.elim
              · rintro ⟨-, -, -, ha, -⟩
                exact absurd h3 (not_le.mpr ha)
            · cases hf : b.focusDist with
              | none =>
                dsimp only
                constructor
                · intro _
                  refine ⟨hdist, hcr, not_le.mp h2, not_le.mp h3, not_lt.mp h1, ?_⟩
                  intro d hd
                  exact Option.noConfusion hd
                · intro _
                  rfl
              | some d =>
                dsimp only
                split_ifs with h4
                · constructor
                  · intro h
                    exact h.elim
                  · rintro ⟨-, -, -, -, -, hfd⟩
                    exact absurd (hfd d rfl) (not_lt.mpr h4)
                · constructor
                  · intro _
                    refine ⟨hdist, hcr, not_le.mp h2, not_le.mp h3, not_lt.mp h1, ?_⟩
                    intro d' hd'
                    cases hd'
                    exact not_le.mp h4
                  · intro _
                    rfl


/-- Modelled from the spec: `F64Ext::lerp` (the newer `lib.rs` is not
    under `src/`) — linear interpolation `a + t (b − a)`. -/
def lerp (t a b : ℝ) : ℝ := a + t * (b - a)

/-- Modelled from the spec: `F64Ext::smooth` — the quintic smoothing
    curve `6t⁵ − 15t⁴ + 10t³`. -/
def smooth (t : ℝ) : ℝ := 6 * t ^ 5 - 15 * t ^ 4 + 10 * t ^ 3

/-- Mirrors `ValueNoise::hash`/`PerlinNoise::hash`: chained permutation
    table lookups indexed by x, then y, then z.  The table is modelled
    as a function (the construction fills indices 0..511 with values
    below 256). -/
def noiseHash (perms : ℕ → ℕ) (x y z : ℕ) : ℕ := perms (perms (perms x + y) + z)

/-- Mirrors the lattice-cube corner computation: `floor_p as isize &
    MASK`, a two's-complement AND with 255 that equals the Euclidean
    remainder modulo 256. -/
def latt (w : ℝ) : ℕ := (⌊w⌋ % 256).toNat

/-- Mirrors `ValueNoise::noise`: scale by the frequency, locate the
    enclosing lattice cube, fetch the eight corner scalars through the
    permutation hash, and trilinearly interpolate with the quintic
    smoothing of the fractional coordinates. -/
def valueNoise (perms : ℕ → ℕ) (randoms : ℕ → ℝ) (freq : ℝ) (p : Vec3) : ℝ :=
  let q : Vec3 := freq • p
  let tx := q.x - ⌊q.x⌋
  let ty := q.y - ⌊q.y⌋
  let tz := q.z - ⌊q.z⌋
  let sx := smooth tx
  let sy := smooth ty
  let sz := smooth tz
  let rx0 := latt q.x
  let ry0 := latt q.y
  let rz0 := latt q.z
  let rx1 := (rx0 + 1) % 256
  let ry1 := (ry0 + 1) % 256
  let rz1 := (rz0 + 1) % 256
  let c000 := randoms (noiseHash perms rx0 ry0 rz0)
  let c100 := randoms (noiseHash perms rx1 ry0 rz0)
  let c010 := randoms (noiseHash perms rx0 ry1 rz0)
  let c110 := randoms (noiseHash perms rx1 ry1 rz0)
  let c001 := randoms (noiseHash perms rx0 ry0 rz1)
  let c101 := randoms (noiseHash perms rx1 ry0 rz1)
  let c011 := randoms (noiseHash perms rx0 ry1 rz1)
  let c111 := randoms (noiseHash perms rx1 ry1 rz1)
  let x00 := lerp sx c000 c100
  let x10 := lerp sx c010 c110
  let x01 := lerp sx c001 c101
  let x11 := lerp sx c011 c111
  let y0 := lerp sy x00 x10
  let y1 := lerp sy x01 x11
  lerp sz y0 y1

/-- Mirrors `PerlinNoise::noise`: as `ValueNoise::noise` but with a
    unit gradient per corner, the interpolated values being the dot
    products of each gradient with the vector from that corner to the
    point, and the signed result normalized to [0,1] at the end. -/
def perlinNoise (perms : ℕ → ℕ) (grads : ℕ → Vec3) (freq : ℝ) (p : Vec3) : ℝ :=
  let q : Vec3 := freq • p
  let tx := q.x - ⌊q.x⌋
  let ty := q.y - ⌊q.y⌋
  let tz := q.z - ⌊q.z⌋
  let sx := smooth tx
  let sy := smooth ty
  let sz := smooth tz
  let rx0 := latt q.x
  let ry0 := latt q.y
  let rz0 := latt q.z
  let rx1 := (rx0 + 1) % 256
  let ry1 := (ry0 + 1) % 256
  let rz1 := (rz0 + 1) % 256
  let c000 := grads (noiseHash perms rx0 ry0 rz0)
  let c100 := grads (noiseHash perms rx1 ry0 rz0)
  let c010 := grads (noiseHash perms rx0 ry1 rz0)
  let c110 := grads (noiseHash perms rx1 ry1 rz0)
  let c001 := grads (noiseHash perms rx0 ry0 rz1)
  let c101 := grads (noiseHash perms rx1 ry0 rz1)
  let c011 := grads (noiseHash perms rx0 ry1 rz1)
  let c111 := grads (noiseHash perms rx1 ry1 rz1)
  let x0 := tx
  let y0c := ty
  let z0c := tz
  let x1 := tx - 1
  let y1c := ty - 1
  let z1c := tz - 1
  let x00 := lerp sx (c000.dot ⟨x0, y0c, z0c⟩) (c100.dot ⟨x1, y0c, z0c⟩)
  let x10 := lerp sx (c010.dot ⟨x0, y1c, z0c⟩) (c110.dot ⟨x1, y1c, z0c⟩)
  let x01 := lerp sx (c001.dot ⟨x0, y0c, z1c⟩) (c101.dot ⟨x1, y0c, z1c⟩)
  let x11 := lerp sx (c011.dot ⟨x0, y1c, z1c⟩) (c111.dot ⟨x1, y1c, z1c⟩)
  let y0 := lerp sy x00 x10
  let y1 := lerp sy x01 x11
  let noise := lerp sz y0 y1
  (noise + 1) * 0.5

/-- The geometric series `1 + gain + ... + gain^(k-1)` that bounds a
    `k`-layer fractal sum with unit initial amplitude. -/
def geomSum (gain : ℝ) : ℕ → ℝ
  | 0 => 0
  | k + 1 => 1 + gain * geomSum gain k

/-- Mirrors the normalization constant of `NoiseAdapter::fBm` and
    `NoiseAdapter::turbulence`:
    `(1 - gain.powi(layers)) / (1 - gain)`. -/
def fBmMax (gain : ℝ) (layers : ℕ) : ℝ := (1 - gain ^ layers) / (1 - gain)

/-- Mirrors the layer loop of the `fBm` callback: accumulate
    `noise(p) * amplitude`, scaling the point by the lacunarity and the
    amplitude by the gain at each layer. -/
def fBmSum (noise : Vec3 → ℝ) (lac gain : ℝ) : ℕ → Vec3 → ℝ → ℝ
  | 0, _, _ => 0
  | k + 1, p, amp => noise p * amp + fBmSum noise lac gain k (lac • p) (amp * gain)

/-- Mirrors `NoiseAdapter::fBm`'s callback: the fractal sum of
    `layers` octaves divided by the geometric-series maximum. -/
def fBm (noise : Vec3 → ℝ) (lac gain : ℝ) (layers : ℕ) (p : Vec3) : ℝ :=
  fBmSum noise lac gain layers p 1 / fBmMax gain layers

/-- Mirrors the layer loop of the `turbulence` callback: each octave
    contributes the absolute value of the noise remapped to [−1, 1]. -/
def turbSum (noise : Vec3 → ℝ) (lac gain : ℝ) : ℕ → Vec3 → ℝ → ℝ
  | 0, _, _ => 0
  | k + 1, p, amp => |2 * noise p - 1| * amp + turbSum noise lac gain k (lac • p) (amp * gain)

/-- Mirrors `NoiseAdapter::turbulence`'s callback. -/
def turbulence (noise : Vec3 → ℝ) (lac gain : ℝ) (layers : ℕ) (p : Vec3) : ℝ :=
  turbSum noise lac gain layers p 1 / fBmMax gain layers

theorem smooth_mem {t : ℝ} (h0 : 0 ≤ t) (h1 : t ≤ 1) : 0 ≤ smooth t ∧ smooth t ≤ 1 := by
  constructor
  · have hquad : 0 ≤ 6 * t ^ 2 - 15 * t + 10 := by nlinarith [sq_nonneg (12 * t - 15)]
    have hfac : smooth t = t ^ 3 * (6 * t ^ 2 - 15 * t + 10) := by unfold smooth; ring
    rw [hfac]
    exact mul_nonneg (pow_nonneg h0 3) hquad
  · have hfac : 1 - smooth t = (1 - t) ^ 3 * (6 * t ^ 2 + 3 * t + 1) := by
      unfold smooth; ring
    have hquad : 0 ≤ 6 * t ^ 2 + 3 * t + 1 := by nlinarith [sq_nonneg (12 * t + 3)]
    have h3 : 0 ≤ (1 - t) ^ 3 := pow_nonneg (by linarith) 3
    nlinarith [mul_nonneg h3 hquad]

theorem lerp_mem {t a b lo hi : ℝ} (ht0 : 0 ≤ t) (ht1 : t ≤ 1)
    (ha : lo ≤ a ∧ a ≤ hi) (hb : lo ≤ b ∧ b ≤ hi) :
    lo ≤ lerp t a b ∧ lerp t a b ≤ hi := by
  unfold lerp
  constructor <;> nlinarith [ha.1, ha.2, hb.1, hb.2]

theorem fract_mem (w : ℝ) : 0 ≤ w - ⌊w⌋ ∧ w - ⌊w⌋ ≤ 1 := by
  constructor
  · linarith [Int.floor_le w]
  · linarith [Int.lt_floor_add_one w]

/-- `ValueNoise::noise` stays within [0,1] whenever every table entry
    does — which the construction guarantees, each entry being one
    `rng.gen::<f64>()` draw from [0,1). -/
theorem valueNoise_mem (perms : ℕ → ℕ) (randoms : ℕ → ℝ) (freq : ℝ) (p : Vec3)
    (h : ∀ i, 0 ≤ randoms i ∧ randoms i ≤ 1) :
    0 ≤ valueNoise perms randoms freq p ∧ valueNoise perms randoms freq p ≤ 1 := by
  unfold valueNoise
  have hx := smooth_mem (fract_mem (freq • p : Vec3).x).1 (fract_mem (freq • p : Vec3).x).2
  have hy := smooth_mem (fract_mem (freq • p : Vec3).y).1 (fract_mem (freq • p : Vec3).y).2
  have hz := smooth_mem (fract_mem (freq • p : Vec3).z).1 (fract_mem (freq • p : Vec3).z).2
  exact lerp_mem hz.1 hz.2
    (lerp_mem hy.1 hy.2 (lerp_mem hx.1 hx.2 (h _) (h _)) (lerp_mem hx.1 hx.2 (h _) (h _)))
    (lerp_mem hy.1 hy.2 (lerp_mem hx.1 hx.2 (h _) (h _)) (lerp_mem hx.1 hx.2 (h _) (h _)))

theorem geomSum_nonneg {gain : ℝ} (h0 : 0 ≤ gain) : ∀ k, 0 ≤ geomSum gain k := by
  intro k
  induction k with
  | zero => exact le_refl _
  | succ k ih =>
    have : 0 ≤ gain * geomSum gain k := mul_nonneg h0 ih
    simp only [geomSum]
    linarith

theorem geomSum_eq_fBmMax {gain : ℝ} (h1 : gain < 1) :
    ∀ k, geomSum gain k = fBmMax gain k := by
  have hne : 1 - gain ≠ 0 := by intro h; linarith [sub_eq_zero.mp h]
  intro k
  induction k with
  | zero => simp [geomSum, fBmMax]
  | succ k ih =>
    simp only [geomSum, ih, fBmMax]
    field_simp
    ring

theorem fBmSum_bounds {noise : Vec3 → ℝ} (hn : ∀ q, 0 ≤ noise q ∧ noise q ≤ 1)
    {lac gain : ℝ} (hg0 : 0 < gain) :
    ∀ (k : ℕ) (p : Vec3) (amp : ℝ), 0 ≤ amp →
      0 ≤ fBmSum noise lac gain k p amp ∧
      fBmSum noise lac gain k p amp ≤ amp * geomSum gain k := by
  intro k
  induction k with
  | zero =>
    intro p amp _
    simp [fBmSum, geomSum]
  | succ k ih =>
    intro p amp hamp
    have hrec := ih (lac • p) (amp * gain) (mul_nonneg hamp hg0.le)
    have hnp := hn p
    simp only [fBmSum, geomSum]
    constructor
    · have : 0 ≤ noise p * amp := mul_nonneg hnp.1 hamp
      linarith [hrec.1]
    · have h1 : noise p * amp ≤ amp := by nlinarith [hnp.2]
      have h2 : fBmSum noise lac gain k (lac • p) (amp * gain) ≤
          amp * gain * geomSum gain k := hrec.2
      nlinarith

theorem turbSum_bounds {noise : Vec3 → ℝ} (hn : ∀ q, 0 ≤ noise q ∧ noise q ≤ 1)
    {lac gain : ℝ} (hg0 : 0 < gain) :
    ∀ (k : ℕ) (p : Vec3) (amp : ℝ), 0 ≤ amp →
      0 ≤ turbSum noise lac gain k p amp ∧
      turbSum noise lac gain k p amp ≤ amp * geomSum gain k := by
  intro k
  induction k with
  | zero =>
    intro p amp _
    simp [turbSum, geomSum]
  | succ k ih =>
    intro p amp hamp
    have hrec := ih (lac • p) (amp * gain) (mul_nonneg hamp hg0.le)
    have hnp := hn p
    have habs : |2 * noise p - 1| ≤ 1 := by
      rw [abs_le]
      constructor <;> nlinarith [hnp.1, hnp.2]
    simp only [turbSum, geomSum]
    constructor
    · have : 0 ≤ |2 * noise p - 1| * amp := mul_nonneg (abs_nonneg _) hamp
      linarith [hrec.1]
    · have h1 : |2 * noise p - 1| * amp ≤ amp := by nlinarith [abs_nonneg (2 * noise p - 1)]
      nlinarith [hrec.2]

theorem fBmMax_pos {gain : ℝ} (hg0 : 0 < gain) (hg1 : gain < 1) {layers : ℕ}
    (hl : 1 ≤ layers) : 0 < fBmMax gain layers := by
  rw [← geomSum_eq_fBmMax hg1]
  obtain ⟨k, rfl⟩ := Nat.exists_eq_add_of_le hl
  rw [show 1 + k = k + 1 from Nat.add_comm 1 k]
  simp only [geomSum]
  have := geomSum_nonneg hg0.le k
  nlinarith

theorem sq_lerp_le {t a b : ℝ} (h0 : 0 ≤ t) (h1 : t ≤ 1) :
    (lerp t a b) ^ 2 ≤ (1 - t) * a ^ 2 + t * b ^ 2 := by
  unfold lerp
  nlinarith [mul_nonneg (mul_nonneg h0 (sub_nonneg.mpr h1)) (sq_nonneg (a - b))]

/-- Cauchy-Schwarz for a unit gradient: the dot product with any
    offset vector is bounded by the offset's squared norm. -/
theorem dot_sq_le {g : Vec3} (d : Vec3) (hg : g.normSq = 1) :
    (g.dot d) ^ 2 ≤ d.normSq := by
  simp only [Vec3.dot, Vec3.normSq] at hg ⊢
  nlinarith [sq_nonneg (g.x * d.y - g.y * d.x), sq_nonneg (g.x * d.z - g.z * d.x),
    sq_nonneg (g.y * d.z - g.z * d.y)]

/-- One axis' contribution to the weighted squared offsets of the
    eight cube corners is at most 1/4 under quintic smoothing. -/
theorem axis_sq_bound {t : ℝ} (h0 : 0 ≤ t) (h1 : t ≤ 1) :
    (1 - smooth t) * t ^ 2 + smooth t * (t - 1) ^ 2 ≤ 1 / 4 := by
  have hu : (2 * t - 1) ^ 2 ≤ 1 := by nlinarith
  have hkey : 1 / 4 - ((1 - smooth t) * t ^ 2 + smooth t * (t - 1) ^ 2) =
      (t - 1 / 2) ^ 2 *
        ((3 / 4) * (2 * t - 1) ^ 4 - (5 / 2) * (2 * t - 1) ^ 2 + 11 / 4) := by
    unfold smooth
    ring
  have hbr : 0 ≤ (3 / 4) * (2 * t - 1) ^ 4 - (5 / 2) * (2 * t - 1) ^ 2 + 11 / 4 := by
    nlinarith [sq_nonneg ((2 * t - 1) ^ 2), hu]
  nlinarith [mul_nonneg (sq_nonneg (t - 1 / 2)) hbr]

/-- Trilinear interpolation with weights in [0,1]: the square of the
    result is bounded by the weighted sum of any per-corner bounds on
    the squares. -/
theorem trilerp_sq_le {sx sy sz a b c d e f g h Ma Mb Mc Md Me Mf Mg Mh : ℝ}
    (hx0 : 0 ≤ sx) (hx1 : sx ≤ 1) (hy0 : 0 ≤ sy) (hy1 : sy ≤ 1)
    (hz0 : 0 ≤ sz) (hz1 : sz ≤ 1)
    (ha : a ^ 2 ≤ Ma) (hb : b ^ 2 ≤ Mb) (hc : c ^ 2 ≤ Mc) (hd : d ^ 2 ≤ Md)
    (he : e ^ 2 ≤ Me) (hf : f ^ 2 ≤ Mf) (hgg : g ^ 2 ≤ Mg) (hh : h ^ 2 ≤ Mh) :
    (lerp sz (lerp sy (lerp sx a b) (lerp sx c d))
      (lerp sy (lerp sx e f) (lerp sx g h))) ^ 2 ≤
    (1 - sz) * ((1 - sy) * ((1 - sx) * Ma + sx * Mb) + sy * ((1 - sx) * Mc + sx * Md)) +
    sz * ((1 - sy) * ((1 - sx) * Me + sx * Mf) + sy * ((1 - sx) * Mg + sx * Mh)) := by
  have hI00 : (lerp sx a b) ^ 2 ≤ (1 - sx) * Ma + sx * Mb := by
    refine le_trans (sq_lerp_le hx0 hx1) ?_
    have := mul_le_mul_of_nonneg_left ha (by linarith : (0:ℝ) ≤ 1 - sx)
    have := mul_le_mul_of_nonneg_left hb hx0
    linarith
  have hI10 : (lerp sx c d) ^ 2 ≤ (1 - sx) * Mc + sx * Md := by
    refine le_trans (sq_lerp_le hx0 hx1) ?_
    have := mul_le_mul_of_nonneg_left hc (by linarith : (0:ℝ) ≤ 1 - sx)
    have := mul_le_mul_of_nonneg_left hd hx0
    linarith
  have hI01 : (lerp sx e f) ^ 2 ≤ (1 - sx) * Me + sx * Mf := by
    refine le_trans (sq_lerp_le hx0 hx1) ?_
    have := mul_le_mul_of_nonneg_left he (by linarith : (0:ℝ) ≤ 1 - sx)
    have := mul_le_mul_of_nonneg_left hf hx0
    linarith
  have hI11 : (lerp sx g h) ^ 2 ≤ (1 - sx) * Mg + sx * Mh := by
    refine le_trans (sq_lerp_le hx0 hx1) ?_
    have := mul_le_mul_of_nonneg_left hgg (by linarith : (0:ℝ) ≤ 1 - sx)
    have := mul_le_mul_of_nonneg_left hh hx0
    linarith
  have hJ0 : (lerp sy (lerp sx a b) (lerp sx c d)) ^ 2 ≤
      (1 - sy) * ((1 - sx) * Ma + sx * Mb) + sy * ((1 - sx) * Mc + sx * Md) := by
    refine le_trans (sq_lerp_le hy0 hy1) ?_
    have := mul_le_mul_of_nonneg_left hI00 (by linarith : (0:ℝ) ≤ 1 - sy)
    have := mul_le_mul_of_nonneg_left hI10 hy0
    linarith
  have hJ1 : (lerp sy (lerp sx e f) (lerp sx g h)) ^ 2 ≤
      (1 - sy) * ((1 - sx) * Me + sx * Mf) + sy * ((1 - sx) * Mg + sx * Mh) := by
    refine le_trans (sq_lerp_le hy0 hy1) ?_
    have := mul_le_mul_of_nonneg_left hI01 (by linarith : (0:ℝ) ≤ 1 - sy)
    have := mul_le_mul_of_nonneg_left hI11 hy0
    linarith
  refine le_trans (sq_lerp_le hz0 hz1) ?_
  have := mul_le_mul_of_nonneg_left hJ0 (by linarith : (0:ℝ) ≤ 1 - sz)
  have := mul_le_mul_of_nonneg_left hJ1 hz0
  linarith

theorem halfshift_mem {N : ℝ} (h : N ^ 2 ≤ 3 / 4) :
    0 ≤ (N + 1) * 0.5 ∧ (N + 1) * 0.5 ≤ 1 := by
  constructor <;> nlinarith [sq_nonneg (N - 1), sq_nonneg (N + 1)]

/-- Core Perlin estimate: the trilinear blend of unit gradients dotted
    with the corner offsets, shifted and halved, lands in [0,1]. -/
theorem perlin_core_bound {tx ty tz : ℝ}
    {c000 c100 c010 c110 c001 c101 c011 c111 : Vec3}
    (h000 : c000.normSq = 1) (h100 : c100.normSq = 1)
    (h010 : c010.normSq = 1) (h110 : c110.normSq = 1)
    (h001 : c001.normSq = 1) (h101 : c101.normSq = 1)
    (h011 : c011.normSq = 1) (h111 : c111.normSq = 1)
    (htx0 : 0 ≤ tx) (htx1 : tx ≤ 1) (hty0 : 0 ≤ ty) (hty1 : ty ≤ 1)
    (htz0 : 0 ≤ tz) (htz1 : tz ≤ 1) :
    0 ≤ (lerp (smooth tz)
          (lerp (smooth ty)
            (lerp (smooth tx) (c000.dot ⟨tx, ty, tz⟩) (c100.dot ⟨tx - 1, ty, tz⟩))
            (lerp (smooth tx) (c010.dot ⟨tx, ty - 1, tz⟩) (c110.dot ⟨tx - 1, ty - 1, tz⟩)))
          (lerp (smooth ty)
            (lerp (smooth tx) (c001.dot ⟨tx, ty, tz - 1⟩) (c101.dot ⟨tx - 1, ty, tz - 1⟩))
            (lerp (smooth tx) (c011.dot ⟨tx, ty - 1, tz - 1⟩) (c111.dot ⟨tx - 1, ty - 1, tz - 1⟩)))
        + 1) * 0.5 ∧
    (lerp (smooth tz)
          (lerp (smooth ty)
            (lerp (smooth tx) (c000.dot ⟨tx, ty, tz⟩) (c100.dot ⟨tx - 1, ty, tz⟩))
            (lerp (smooth tx) (c010.dot ⟨tx, ty - 1, tz⟩) (c110.dot ⟨tx - 1, ty - 1, tz⟩)))
          (lerp (smooth ty)
            (lerp (smooth tx) (c001.dot ⟨tx, ty, tz - 1⟩) (c101.dot ⟨tx - 1, ty, tz - 1⟩))
            (lerp (smooth tx) (c011.dot ⟨tx, ty - 1, tz - 1⟩) (c111.dot ⟨tx - 1, ty - 1, tz - 1⟩)))
        + 1) * 0.5 ≤ 1 := by
  have hsx := smooth_mem htx0 htx1
  have hsy := smooth_mem hty0 hty1
  have hsz := smooth_mem htz0 htz1
  have hN2 := trilerp_sq_le hsx.1 hsx.2 hsy.1 hsy.2 hsz.1 hsz.2
    (dot_sq_le ⟨tx, ty, tz⟩ h000) (dot_sq_le ⟨tx - 1, ty, tz⟩ h100)
    (dot_sq_le ⟨tx, ty - 1, tz⟩ h010) (dot_sq_le ⟨tx - 1, ty - 1, tz⟩ h110)
    (dot_sq_le ⟨tx, ty, tz - 1⟩ h001) (dot_sq_le ⟨tx - 1, ty, tz - 1⟩ h101)
    (dot_sq_le ⟨tx, ty - 1, tz - 1⟩ h011) (dot_sq_le ⟨tx - 1, ty - 1, tz - 1⟩ h111)
  refine halfshift_mem (le_trans hN2 ?_)
  have hsum : (1 - smooth tz) *
        ((1 - smooth ty) *
            ((1 - smooth tx) * Vec3.normSq ⟨tx, ty, tz⟩ +
              smooth tx * Vec3.normSq ⟨tx - 1, ty, tz⟩) +
          smooth ty *
            ((1 - smooth tx) * Vec3.normSq ⟨tx, ty - 1, tz⟩ +
              smooth tx * Vec3.normSq ⟨tx - 1, ty - 1, tz⟩)) +
      smooth tz *
        ((1 - smooth ty) *
            ((1 - smooth tx) * Vec3.normSq ⟨tx, ty, tz - 1⟩ +
              smooth tx * Vec3.normSq ⟨tx - 1, ty, tz - 1⟩) +
          smooth ty *
            ((1 - smooth tx) * Vec3.normSq ⟨tx, ty - 1, tz - 1⟩ +
              smooth tx * Vec3.normSq ⟨tx - 1, ty - 1, tz - 1⟩)) =
      ((1 - smooth tx) * tx ^ 2 + smooth tx * (tx - 1) ^ 2) +
      ((1 - smooth ty) * ty ^ 2 + smooth ty * (ty - 1) ^ 2) +
      ((1 - smooth tz) * tz ^ 2 + smooth tz * (tz - 1) ^ 2) := by
    simp only [Vec3.normSq]
    ring
  rw [hsum]
  have hax := axis_sq_bound htx0 htx1
  have hay := axis_sq_bound hty0 hty1
  have haz := axis_sq_bound htz0 htz1
  linarith

/-- `PerlinNoise::noise` stays within [0,1] whenever every gradient in
    the table is a unit vector — which the construction guarantees, each
    entry being `Vec3::rand_unit(rng)`. -/
theorem perlinNoise_mem (perms : ℕ → ℕ) (grads : ℕ → Vec3) (freq : ℝ) (p : Vec3)
    (h : ∀ i, (grads i).normSq = 1) :
    0 ≤ perlinNoise perms grads freq p ∧ perlinNoise perms grads freq p ≤ 1 := by
  unfold perlinNoise
  have htx := fract_mem (freq • p : Vec3).x
  have hty := fract_mem (freq • p : Vec3).y
  have htz := fract_mem (freq • p : Vec3).z
  exact perlin_core_bound (h _) (h _) (h _) (h _) (h _) (h _) (h _) (h _)
    htx.1 htx.2 hty.1 hty.2 htz.1 htz.2

/-- Both adapters divide a sum of at most `geomSum` octaves by the
    normalization constant `fBmMax`, so any [0,1]-valued base noise
    yields adapter values inside [0,1]. -/
theorem adapter_mem {noise : Vec3 → ℝ} (hn : ∀ q, 0 ≤ noise q ∧ noise q ≤ 1)
    {lac gain : ℝ} (hg0 : 0 < gain) (hg1 : gain < 1) {layers : ℕ}
    (hl : 1 ≤ layers) (p : Vec3) :
    (0 ≤ fBm noise lac gain layers p ∧ fBm noise lac gain layers p ≤ 1) ∧
    (0 ≤ turbulence noise lac gain layers p ∧
      turbulence noise lac gain layers p ≤ 1) := by
  have hmax := fBmMax_pos hg0 hg1 hl
  have hf := @fBmSum_bounds noise hn lac gain hg0 layers p 1 zero_le_one
  have ht := @turbSum_bounds noise hn lac gain hg0 layers p 1 zero_le_one
  have hgeq := geomSum_eq_fBmMax hg1 layers
  unfold fBm turbulence
  refine ⟨⟨div_nonneg hf.1 hmax.le, ?_⟩, div_nonneg ht.1 hmax.le, ?_⟩
  · rw [div_le_one hmax]
    calc fBmSum noise lac gain layers p 1 ≤ 1 * geomSum gain layers := hf.2
    _ = fBmMax gain layers := by rw [one_mul, hgeq]
  · rw [div_le_one hmax]
    calc turbSum noise lac gain layers p 1 ≤ 1 * geomSum gain layers := ht.2
    _ = fBmMax gain layers := by rw [one_mul, hgeq]

/-- C8: for every base noise with values in [0,1] — which both
    `ValueNoise` (a table of `rng.gen::<f64>()` draws) and `PerlinNoise`
    (unit-gradient dot products, shifted and halved) provide — every
    lacunarity, every gain strictly between 0 and 1, every layer count
    ≥ 1 and every query point, the `fBm` adapter value and the
    `turbulence` adapter value both lie within [0,1]. -/
theorem C8_noise_adapters_in_unit :
    (∀ (noise : Vec3 → ℝ), (∀ q, 0 ≤ noise q ∧ noise q ≤ 1) →
      ∀ (lac gain : ℝ), 0 < gain → gain < 1 →
      ∀ (layers : ℕ), 1 ≤ layers → ∀ (p : Vec3),
        (0 ≤ fBm noise lac gain layers p ∧ fBm noise lac gain layers p ≤ 1) ∧
        (0 ≤ turbulence noise lac gain layers p ∧
          turbulence noise lac gain layers p ≤ 1)) ∧
    (∀ (perms : ℕ → ℕ) (randoms : ℕ → ℝ) (freq : ℝ) (p : Vec3),
      (∀ i, 0 ≤ randoms i ∧ randoms i ≤ 1) →
      0 ≤ valueNoise perms randoms freq p ∧ valueNoise perms randoms freq p ≤ 1) ∧
    (∀ (perms : ℕ → ℕ) (grads : ℕ → Vec3) (freq : ℝ) (p : Vec3),
      (∀ i, (grads i).normSq = 1) →
      0 ≤ perlinNoise perms grads freq p ∧ perlinNoise perms grads freq p ≤ 1) := by
  refine ⟨?_, ?_, ?_⟩
  · intro noise hn lac gain hg0 hg1 layers hl p
    exact adapter_mem hn hg0 hg1 hl p
  · intro perms randoms freq p h
    exact valueNoise_mem perms randoms freq p h
  · intro perms grads freq p h
    exact perlinNoise_mem perms grads freq p h

theorem C8_noise_adapters_in_unit_witness :
    (0 ≤ fBm (fun _ => 0) 2 (1 / 2) 1 ⟨0, 0, 0⟩ ∧
      fBm (fun _ => 0) 2 (1 / 2) 1 ⟨0, 0, 0⟩ ≤ 1) ∧
    (0 ≤ valueNoise (fun i => i) (fun _ => 0) 1 ⟨0, 0, 0⟩ ∧
      valueNoise (fun i => i) (fun _ => 0) 1 ⟨0, 0, 0⟩ ≤ 1) ∧
    (0 ≤ perlinNoise (fun i => i) (fun _ => ⟨1, 0, 0⟩) 1 ⟨0, 0, 0⟩ ∧
      perlinNoise (fun i => i) (fun _ => ⟨1, 0, 0⟩) 1 ⟨0, 0, 0⟩ ≤ 1) :=
  ⟨(C8_noise_adapters_in_unit.1 (fun _ => 0)
      (fun _ => ⟨le_refl 0, zero_le_one⟩) 2 (1 / 2)
      (by norm_num) (by norm_num) 1 (le_refl 1) ⟨0, 0, 0⟩).1,
    C8_noise_adapters_in_unit.2.1 (fun i => i) (fun _ => 0) 1 ⟨0, 0, 0⟩
      (fun _ => ⟨le_refl 0, zero_le_one⟩),
    C8_noise_adapters_in_unit.2.2 (fun i => i) (fun _ => ⟨1, 0, 0⟩) 1 ⟨0, 0, 0⟩
      (fun _ => by simp [Vec3.normSq])⟩
